import Mathlib

set_option maxRecDepth 100000

/-! Shallow embedding of the localserver-rust HTTP server core and proofs
about it.  Byte strings are modelled as `List Char`, one `Char` per byte
(all inputs considered here are ASCII, where the Rust `str`/byte view and
this view coincide).  Rust `HashMap`-backed header maps are modelled as
association lists whose `insert` replaces in place, so that the entry
count matches `HashMap::len`. -/

/-! ## Basic character and list utilities mirroring the Rust std helpers -/

/-- ASCII fragment of Rust `char::is_whitespace` (the characters 0x09-0x0D
and 0x20; all inputs of interest are ASCII). -/
def isWS (c : Char) : Bool :=
  c == ' ' || c == '\t' || c == '\n' || c == '\r' || c.toNat == 11 || c.toNat == 12

/-- Rust `char::to_ascii_lowercase`. -/
def asciiLowerChar (c : Char) : Char :=
  if 'A' ≤ c ∧ c ≤ 'Z' then Char.ofNat (c.toNat + 32) else c

/-- Rust `str::to_lowercase` restricted to ASCII strings. -/
def asciiLowerStr (l : List Char) : List Char := l.map asciiLowerChar

/-- Rust `char::to_ascii_uppercase`. -/
def asciiUpperChar (c : Char) : Char :=
  if 'a' ≤ c ∧ c ≤ 'z' then Char.ofNat (c.toNat - 32) else c

/-- Rust `str::to_uppercase` restricted to ASCII strings. -/
def asciiUpperStr (l : List Char) : List Char := l.map asciiUpperChar

/-- Rust `str::trim` (strip whitespace from both ends). -/
def trimWS (l : List Char) : List Char :=
  ((l.dropWhile isWS).reverse.dropWhile isWS).reverse

/-- Rust `str::trim_matches('/')`. -/
def trimSlash (l : List Char) : List Char :=
  ((l.dropWhile (· == '/')).reverse.dropWhile (· == '/')).reverse

/-- Rust `str::split(sep)`: splits on every occurrence of `sep`, keeping
empty fragments (splitting the empty string yields one empty fragment). -/
def splitOnChar (sep : Char) : List Char → List (List Char)
  | [] => [[]]
  | c :: t =>
    if c = sep then [] :: splitOnChar sep t
    else
      match splitOnChar sep t with
      | [] => [[c]]
      | h :: r => (c :: h) :: r

/-- Rust `str::split_once(sep)`: split at the first occurrence of `sep`. -/
def splitOnceChar (sep : Char) : List Char → Option (List Char × List Char)
  | [] => none
  | c :: t =>
    if c = sep then some ([], t)
    else (splitOnceChar sep t).map (fun p => (c :: p.1, p.2))

/-- Split on a character class, keeping empty fragments (helper for
`splitWS`). -/
def splitOnPred (p : Char → Bool) : List Char → List (List Char)
  | [] => [[]]
  | c :: t =>
    if p c then [] :: splitOnPred p t
    else
      match splitOnPred p t with
      | [] => [[c]]
      | h :: r => (c :: h) :: r

/-- Rust `str::split_whitespace`: whitespace-separated fragments, with no
empty fragments. -/
def splitWS (l : List Char) : List (List Char) :=
  (splitOnPred isWS l).filter (· ≠ [])

/-- Join a list of parts with a separator, Rust `Vec::join`. -/
def joinSep (sep : List Char) : List (List Char) → List Char
  | [] => []
  | [p] => p
  | p :: q :: ps => p ++ sep ++ joinSep sep (q :: ps)

/-! ## Association-list model of `HashMap<String, String>` -/

/-- A header/argument map.  Insertion replaces the value of an existing
key in place, so the length of the list is the number of distinct keys,
matching `HashMap::len`. -/
abbrev AssocMap := List (List Char × List Char)

/-- `HashMap::insert` (replace if the key is present, append otherwise). -/
def assocInsert (m : AssocMap) (k v : List Char) : AssocMap :=
  if m.any (fun p => p.1 == k) then
    m.map (fun p => if p.1 == k then (k, v) else p)
  else m ++ [(k, v)]

/-- Raw lookup by exact key. -/
def assocGet (m : AssocMap) (k : List Char) : Option (List Char) :=
  (m.find? (fun p => p.1 == k)).map (·.2)

/-! ## `utils/headers.rs`: `HttpHeaders` (keys lower-cased on the way in) -/

/-- `HttpHeaders::insert`: stores under the ASCII-lowercased key. -/
def HttpHeaders.insert (m : AssocMap) (k v : List Char) : AssocMap :=
  assocInsert m (asciiLowerStr k) v

/-- `HttpHeaders::get`: looks up the ASCII-lowercased key. -/
def HttpHeaders.get (m : AssocMap) (k : List Char) : Option (List Char) :=
  assocGet m (asciiLowerStr k)

/-! ## `utils/methods.rs`: `HttpMethod` -/

inductive HttpMethod where
  | GET
  | POST
  | DELETE
  | Other (name : List Char)
  deriving DecidableEq, BEq, Repr

/-- `HttpMethod::from_str`: uppercases, then matches the three known
methods; anything else becomes `Other` carrying the uppercased name. -/
def HttpMethod.from_str (m : List Char) : HttpMethod :=
  let m := asciiUpperStr m
  if m = "GET".toList then .GET
  else if m = "POST".toList then .POST
  else if m = "DELETE".toList then .DELETE
  else .Other m

/-- `HttpMethod::to_str`. -/
def HttpMethod.to_str : HttpMethod → List Char
  | .GET => "GET".toList
  | .POST => "POST".toList
  | .DELETE => "DELETE".toList
  | .Other n => n

/-! ## `request.rs`: the incremental request parser -/

/-- `MAX_HEADER_SIZE = 1024 * 16`. -/
def MAX_HEADER_SIZE : Nat := 1024 * 16

/-- `MAX_HEADER_COUNT = 100`. -/
def MAX_HEADER_COUNT : Nat := 100

structure HttpRequest where
  method : HttpMethod
  path : List Char
  args : AssocMap
  headers : AssocMap
  body : List Char
  deriving DecidableEq, Repr

inductive ParseState where
  | Init
  | Headers
  | Body
  | Finish
  deriving DecidableEq, Repr

structure HttpRequestBuilder where
  request : HttpRequest
  buffer : List Char
  state : ParseState
  body_size : Nat
  chunked : Bool
  deriving DecidableEq, Repr

/-- The error strings `append` can return, as named constants. -/
inductive ParseErr where
  | entityTooLarge          -- "Entity Too Large"
  | invalidRequestLine      -- "Invalid method + path + version request"
  | headerCapExceeded       -- "Header number exceed allowed"
  | invalidHeader           -- "Invalid Header"
  | invalidContentLength    -- "invalid content-length"
  | invalidChunkSize        -- "Invalud chunk size"
  deriving DecidableEq, Repr

/-- `HttpRequestBuilder::new`. -/
def HttpRequestBuilder.new : HttpRequestBuilder :=
  { request :=
      { method := .GET, path := [], args := [], headers := [], body := [] }
    chunked := false
    state := .Init
    body_size := 0
    buffer := [] }

/-- `HttpRequestBuilder::done`. -/
def HttpRequestBuilder.done (b : HttpRequestBuilder) : Bool :=
  b.state == .Finish

/-- `get_line`: find the first CRLF, return the line before it and the
remaining buffer.  (The Rust version decodes the drained bytes as UTF-8;
in this ASCII model decoding always succeeds.) -/
def get_line : List Char → Option (List Char × List Char)
  | [] => none
  | [_] => none
  | c₁ :: c₂ :: t =>
    if c₁ = '\r' ∧ c₂ = '\n' then some ([], t)
    else (get_line (c₂ :: t)).map (fun p => (c₁ :: p.1, p.2))

/-- Rust `usize::from_str` (decimal, optional leading `+`, must fit in
64 bits). -/
def parseUsize (l : List Char) : Option Nat :=
  let digits := match l with
    | '+' :: t => t
    | t => t
  if digits ≠ [] ∧ digits.all (·.isDigit) then
    let n := digits.foldl (fun acc c => acc * 10 + (c.toNat - 48)) 0
    if n < 2 ^ 64 then some n else none
  else none

/-- Hex digit value. -/
def hexVal (c : Char) : Option Nat :=
  if '0' ≤ c ∧ c ≤ '9' then some (c.toNat - 48)
  else if 'a' ≤ c ∧ c ≤ 'f' then some (c.toNat - 87)
  else if 'A' ≤ c ∧ c ≤ 'F' then some (c.toNat - 55)
  else none

/-- Rust `i64::from_str_radix(s, 16)`: optional sign, hex digits, must
fit in an `i64`. -/
def parseI64Hex (l : List Char) : Option Int :=
  let (neg, digits) : Bool × List Char := match l with
    | '-' :: t => (true, t)
    | '+' :: t => (false, t)
    | t => (false, t)
  if digits = [] then none
  else
    match digits.mapM hexVal with
    | none => none
    | some ds =>
      let n : Nat := ds.foldl (fun acc d => acc * 16 + d) 0
      if neg then if n ≤ 2 ^ 63 then some (-(n : Int)) else none
      else if n < 2 ^ 63 then some (n : Int) else none

/-- The Rust `size as usize` cast on an `i64` (two's complement wrap). -/
def i64AsUsize (i : Int) : Nat := (i % (2 : Int) ^ 64).toNat

/-- `Vec<&str>` from `parts[1].split('?')`, query map from `k=v&...`
pairs (pairs without exactly one `=` are dropped; collected into a
`HashMap`, so a later duplicate key overwrites an earlier one). -/
def parseQueryArgs (q : List Char) : AssocMap :=
  ((splitOnChar '&' q).filterMap (fun pair =>
    match splitOnChar '=' pair with
    | [k, v] => some (k, v)
    | _ => none)).foldl (fun m kv => assocInsert m kv.1 kv.2) []

/-- Result of one iteration of the `while` loop in `append`:
continue looping, return `Ok(())`, or return an error. -/
inductive StepOut where
  | next (b : HttpRequestBuilder)
  | stop (b : HttpRequestBuilder)
  | fail (e : ParseErr)
  deriving Repr

/-- The `State::Body` chunked tail: read a hex size line; `0` finishes,
otherwise the declared size is added to `body_size` and the loop
continues. -/
def readChunkSize (b : HttpRequestBuilder) : StepOut :=
  match get_line b.buffer with
  | none => .stop b
  | some (sizeLine, rest) =>
    let s := match sizeLine with
      | '0' :: 'x' :: t => t        -- strip_prefix("0x")
      | t => t
    match parseI64Hex s with
    | none => .fail .invalidChunkSize
    | some n =>
      if n = 0 then .stop { b with buffer := rest, state := .Finish }
      else .next { b with buffer := rest, body_size := b.body_size + i64AsUsize n }

/-- One iteration of the `while !self.buffer.is_empty()` loop of
`HttpRequestBuilder::append` (the caller guarantees a non-empty buffer). -/
def stepB (b : HttpRequestBuilder) : StepOut :=
  match b.state with
  | .Init =>
    match get_line b.buffer with
    | none =>
      if MAX_HEADER_SIZE ≤ b.buffer.length then .fail .entityTooLarge
      else .stop b
    | some (line, rest) =>
      match splitWS line with
      | [m, target, _version] =>
        let pp := splitOnChar '?' target
        let path := pp.headD []
        let args := match pp with
          | _ :: q :: _ => parseQueryArgs q
          | _ => b.request.args
        .next { b with
                buffer := rest
                state := .Headers
                request := { b.request with
                             method := HttpMethod.from_str m
                             path := path
                             args := args } }
      | _ => .fail .invalidRequestLine
  | .Headers =>
    match get_line b.buffer with
    | none => .stop b
    | some (line, rest) =>
      if line = [] then
        let st : ParseState :=
          if b.body_size = 0 ∧ ¬ b.chunked then .Finish else .Body
        .next { b with buffer := rest, state := st }
      else if MAX_HEADER_COUNT < b.request.headers.length ∨ MAX_HEADER_SIZE < line.length then
        .fail .headerCapExceeded
      else
        match splitOnceChar ':' line with
        | none => .fail .invalidHeader
        | some (k, v) =>
          let key := trimWS k
          let value := trimWS v
          if asciiLowerStr key = "content-length".toList then
            if (HttpHeaders.get b.request.headers "content-length".toList).isSome
                ∨ HttpHeaders.get b.request.headers "Transfer-Encoding".toList
                    = some "chunked".toList then
              .next { b with buffer := rest }      -- continue (skip insert)
            else
              match parseUsize value with
              | none => .fail .invalidContentLength
              | some n =>
                .next { b with
                        buffer := rest
                        body_size := n
                        request := { b.request with
                                     headers := HttpHeaders.insert b.request.headers key value } }
          else if asciiLowerStr key = "transfer-encoding".toList
              ∧ asciiLowerStr value = "chunked".toList then
            if (HttpHeaders.get b.request.headers "content-length".toList).isSome then
              .next { b with buffer := rest }      -- continue (skip insert)
            else
              .next { b with
                      buffer := rest
                      chunked := true
                      request := { b.request with
                                   headers := HttpHeaders.insert b.request.headers key value } }
          else
            .next { b with
                    buffer := rest
                    request := { b.request with
                                 headers := HttpHeaders.insert b.request.headers key value } }
  | .Body =>
    let bodyLeft := b.body_size - b.request.body.length
    let b' :=
      if 0 < bodyLeft then
        let toTake := min bodyLeft b.buffer.length
        { b with
          buffer := b.buffer.drop toTake
          request := { b.request with body := b.request.body ++ b.buffer.take toTake } }
      else b
    if b'.chunked then
      if b'.body_size ≠ 0 then
        match get_line b'.buffer with
        | none => .stop b'
        | some (_empty, rest) => readChunkSize { b' with buffer := rest }
      else readChunkSize b'
    else .stop { b' with state := .Finish }
  | .Finish => .stop b

/-- The `while` loop of `append`, with fuel.  Every continuing iteration
strictly shrinks the buffer, so fuel `buffer.length + 1` is always
sufficient. -/
def runB : Nat → HttpRequestBuilder → Except ParseErr HttpRequestBuilder
  | 0, b => .ok b
  | fuel + 1, b =>
    if b.buffer = [] then .ok b
    else
      match stepB b with
      | .next b' => runB fuel b'
      | .stop b' => .ok b'
      | .fail e => .error e

/-- `HttpRequestBuilder::append`. -/
def HttpRequestBuilder.append (b : HttpRequestBuilder) (chunk : List Char) :
    Except ParseErr HttpRequestBuilder :=
  let b' := { b with buffer := b.buffer ++ chunk }
  runB (b'.buffer.length + 1) b'

/-! ## `config.rs` / `server.rs` data model

The records below follow the fields `server.rs` actually reads
(`server_name`, `root`, `error_pages` with `code`/`path`, `routes`,
`default_server`). -/

structure Route where
  path : List Char
  methods : List (List Char)
  root : List Char
  default_file : Option (List Char)
  redirect : Option (List Char)
  cgi : Option (List Char)
  list_directory : Option Bool
  deriving DecidableEq, Repr

structure ErrorPage where
  code : Nat
  path : List Char
  deriving DecidableEq, Repr

structure ServerConfig where
  server_name : List Char
  root : List Char
  error_pages : List ErrorPage
  routes : List Route
  default_server : Bool
  deriving DecidableEq, Repr

structure ListenerInfo where
  host : List Char
  port : Nat
  servers : List ServerConfig
  default_server_index : Nat
  deriving DecidableEq, Repr

/-! ## Abstract filesystem

Paths handed to `canonicalize` are modelled as lists of components; the
abstract filesystem says which canonical component paths exist.  String
paths (as handed to `File::open`, `fs::write`, `fs::remove_file`) are
judged by the `read_ok`/`write_ok`/`remove_ok` oracles.  The model is
symlink-free, so Rust `Path::canonicalize` is lexical `.`/`..`
normalization followed by an existence check. -/

structure FS where
  exists_seg : List (List Char) → Bool
  read_ok : List Char → Bool
  write_ok : List Char → Bool
  remove_ok : List Char → Bool

/-- Split a path string into components (empty fragments from `//`,
leading or trailing `/` are dropped; `.` and `..` are kept and handled
by `normalize`). -/
def pathToTokens (s : List Char) : List (List Char) :=
  (splitOnChar '/' s).filter (· ≠ [])

/-- Lexical normalization of `.` and `..` components (`..` at the root
stays at the root, as for an absolute path). -/
def normalizeSegs (acc : List (List Char)) : List (List Char) → List (List Char)
  | [] => acc
  | t :: ts =>
    if t = ".".toList then normalizeSegs acc ts
    else if t = "..".toList then normalizeSegs acc.dropLast ts
    else normalizeSegs (acc ++ [t]) ts

/-- `Path::canonicalize` in the symlink-free model: normalize, then
require existence. -/
def canonicalize (fs : FS) (p : List (List Char)) : Option (List (List Char)) :=
  let n := normalizeSegs [] p
  if fs.exists_seg n then some n else none

/-- Render a canonical component path back to a string (`Path::to_str`). -/
def tokensToPath (ts : List (List Char)) : List Char :=
  joinSep "/".toList ts

/-- The `relative_path` computed by `resolve_file_path`:
`request_path.strip_prefix(&route.path).unwrap_or("").trim_start_matches('/')`. -/
def relString (route : Route) (request_path : List Char) : List Char :=
  (if route.path.isPrefixOf request_path
   then request_path.drop route.path.length
   else []).dropWhile (· == '/')

/-- The component form of `relative_path`. -/
def relTokens (route : Route) (request_path : List Char) : List (List Char) :=
  pathToTokens (relString route request_path)

/-- `server.rs::resolve_file_path`.  `base` is
`format!("{}/{}", server.root, route.root)` canonicalized; the stripped
request path is joined onto it; the join is canonicalized (falling back
to the canonicalized parent when the target does not exist) and checked
to stay inside the base. -/
def resolve_file_path (fs : FS) (server : ServerConfig) (route : Route)
    (request_path : List Char) : Option (List Char) :=
  let baseT := pathToTokens (server.root ++ '/' :: route.root)
  match canonicalize fs baseT with
  | none => none
  | some base_path =>
    let full_path := base_path ++ relTokens route request_path
    let canonical? : Option (List (List Char)) :=
      match canonicalize fs full_path with
      | some c => some c
      | none =>
        match full_path with
        | [] => none                                   -- parent() is None
        | _ =>
          match canonicalize fs full_path.dropLast with
          | none => none
          | some canonical_parent =>
            if base_path.isPrefixOf canonical_parent then some full_path else none
    match canonical? with
    | none => none
    | some canonical =>
      if base_path.isPrefixOf canonical then some (tokensToPath canonical) else none

/-! ## `server.rs`: host selection and routing -/

/-- `server.rs::extract_hostname`:
`headers.get("host").and_then(|h| h.split(':').next()).unwrap_or("")`. -/
def extract_hostname (headers : AssocMap) : List Char :=
  match HttpHeaders.get headers "host".toList with
  | some h => (splitOnChar ':' h).headD []
  | none => []

/-- `server.rs::select_server`: first server whose `server_name` equals
the hostname, else the server at `default_server_index` (the Rust code
panics when that index is out of bounds; the panic is modelled as
`none`). -/
def select_server (info : ListenerInfo) (hostname : List Char) :
    Option ServerConfig :=
  match info.servers.find? (fun s => s.server_name == hostname) with
  | some srv => some srv
  | none => info.servers.get? info.default_server_index

/-- `server.rs::get_error_page_path`. -/
def get_error_page_path (server : ServerConfig) (status_code : Nat) : List Char :=
  match server.error_pages.find? (fun ep => ep.code == status_code) with
  | some ep => ep.path
  | none => "./error_pages/".toList ++ Nat.toDigits 10 status_code ++ ".html".toList

/-- The filter predicate of `find_matching_route`: the route path is
`/`, equals the request path, or followed by `/` is a prefix of the
request path. -/
def routeMatches (request_path : List Char) (route : Route) : Bool :=
  if route.path = "/".toList then true
  else request_path == route.path || (route.path ++ "/".toList).isPrefixOf request_path

/-- Rust `Iterator::max_by_key` (the last of several maximal elements is
kept), as a fold. -/
def pickMaxRoute : Option Route → List Route → Option Route
  | acc, [] => acc
  | none, r :: t => pickMaxRoute (some r) t
  | some m, r :: t =>
    pickMaxRoute (some (if m.path.length ≤ r.path.length then r else m)) t

/-- `server.rs::find_matching_route`. -/
def find_matching_route (server : ServerConfig) (request_path : List Char) :
    Option Route :=
  pickMaxRoute none (server.routes.filter (routeMatches request_path))

/-! ## Response outcome abstraction

The claims below only depend on the status line of the produced
response (or on the fact that the CGI bridge or multipart upload path
was entered), so the handlers are embedded as functions onto that
projection. -/

inductive HandlerOutcome where
  | status (code : Nat)
  | cgiInvoked         -- `run_cgi` was dispatched (exit status decides 200/500)
  | multipartDispatch  -- `handle_post` entered the multipart branch
  deriving DecidableEq, Repr

/-- `response.rs::HttpResponseBuilder::serve_error_page` always carries
the given status code, whether or not the error page file is readable. -/
def serve_error_page_status (fs : FS) (error_page_path : List Char)
    (status_code : Nat) : Nat :=
  if fs.read_ok error_page_path then status_code else status_code

/-- `response.rs::handle_method_not_allowed` answers `405` with either
the configured 405 page or a plain-text fallback body. -/
def handle_method_not_allowed_status (fs : FS) (server : ServerConfig) : Nat :=
  let path :=
    match server.error_pages.find? (fun ep => ep.code == 405) with
    | some ep => ep.path
    | none => "./errors_pages/405.html".toList
  if fs.read_ok path then 405 else 405

/-- `handler.rs::handle_get`, projected to the response status.
`file_path` is the resolved path handed in by `handle_read_state`
(`FileResponse::new` succeeds iff the file is readable). -/
def handle_get_status (fs : FS) (file_path : List Char) (server : ServerConfig)
    (req : HttpRequest) : Nat :=
  let path := trimSlash req.path
  match server.routes.find? (fun r => trimSlash r.path == path) with
  | some route =>
    if route.list_directory = some true then 200    -- serve_directory_listing
    else
      match route.default_file with
      | some default_file =>
        let full_path := server.root ++ '/' :: route.root ++ '/' :: default_file
        if fs.read_ok full_path then 200 else 404
      | none =>
        if fs.read_ok file_path then 200 else 404   -- fall through to direct serve
  | none =>
    if fs.read_ok file_path then 200 else 404

/-- `handler.rs::handle_delete`, projected to the response status. -/
def handle_delete_status (fs : FS) (file_path error_page_path : List Char) : Nat :=
  if fs.remove_ok file_path then 204
  else serve_error_page_status fs error_page_path 404

/-- The six directly-uploadable content-type families of `handle_post`. -/
def directUploadType (ct : List Char) : Bool :=
  "application/".toList.isPrefixOf ct || "image/".toList.isPrefixOf ct
    || "audio/".toList.isPrefixOf ct || "video/".toList.isPrefixOf ct
    || "font/".toList.isPrefixOf ct || "text/".toList.isPrefixOf ct

/-- `handler.rs::handle_post`, projected to the response status.
`uuidName` stands for the generated `upload_<uuid>.<subtype>` filename
(only relevant when `file_path` ends in `/`); the multipart branch is
reported as `multipartDispatch`. -/
def handle_post_status (fs : FS) (file_path : List Char)
    (body? : Option (List Char)) (reqPath : List Char) (headers : AssocMap)
    (uuidName : List Char) : HandlerOutcome :=
  match body? with
  | none => .status 400                       -- "Empty body"
  | some _body =>
    match HttpHeaders.get headers "content-type".toList with
    | none => .status 400                     -- "Missing Content-Type"
    | some ct =>
      if directUploadType ct then
        let lastSeg := (splitOnChar '/' reqPath).getLastD []
        let filename :=
          if lastSeg.contains '.' && ¬ lastSeg.isEmpty then lastSeg else uuidName
        let save_path :=
          if file_path.getLast? = some '/' then file_path ++ filename else file_path
        if fs.write_ok save_path then .status 200 else .status 500  -- write_file
      else if "multipart/form-data".toList.isPrefixOf ct then .multipartDispatch
      else .status 415

/-- The `match request_method` dispatch at the end of
`handle_read_state` (file path already resolved, CGI not taken). -/
def dispatch_method_outcome (fs : FS) (server : ServerConfig)
    (req : HttpRequest) (file_path uuidName : List Char) : HandlerOutcome :=
  match req.method with
  | .GET => .status (handle_get_status fs file_path server req)
  | .POST => handle_post_status fs file_path (some req.body) req.path req.headers uuidName
  | .DELETE =>
    .status (handle_delete_status fs file_path (get_error_page_path server 404))
  | .Other _ => .status (handle_method_not_allowed_status fs server)

/-- `server.rs::handle_read_state`, from route lookup to the response
installed for the parsed request, projected to `HandlerOutcome`.
(`HttpResponseBuilder::redirect` is not present in `response.rs`;
modelled from the spec: a redirect route answers `302 Found`.) -/
def handle_request_outcome (fs : FS) (server : ServerConfig)
    (req : HttpRequest) (uuidName : List Char) : HandlerOutcome :=
  match find_matching_route server req.path with
  | none => .status (serve_error_page_status fs (get_error_page_path server 404) 404)
  | some route =>
    match route.redirect with
    | some _ => .status 302
    | none =>
      if route.methods.any (fun m => HttpMethod.from_str m == req.method) then
        let file_path := (resolve_file_path fs server route req.path).getD []
        match route.cgi with
        | some cgi_ext =>
          if cgi_ext.isSuffixOf req.path then .cgiInvoked
          else dispatch_method_outcome fs server req file_path uuidName
        | none => dispatch_method_outcome fs server req file_path uuidName
      else .status (handle_method_not_allowed_status fs server)

/-! ## `cgi.rs`: the CGI context -/

structure CgiContext where
  method : List Char
  path : List Char
  query_string : List Char
  headers : AssocMap
  body : List Char
  deriving DecidableEq, Repr

/-- `cgi.rs::CgiContext::from_request`: re-splits `request.path` on the
first `?` to recover path and query string. -/
def CgiContext.from_request (r : HttpRequest) : CgiContext :=
  match splitOnceChar '?' r.path with
  | some (p, q) =>
    { method := r.method.to_str, path := p, query_string := q
      headers := r.headers, body := r.body }
  | none =>
    { method := r.method.to_str, path := r.path, query_string := []
      headers := r.headers, body := r.body }

/-! ## `utils/cookie.rs` -/

inductive SameSite where
  | Strict
  | Lax
  | None
  deriving DecidableEq, Repr

structure Cookie where
  name : List Char
  value : List Char
  path : Option (List Char)
  domain : Option (List Char)
  max_age : Option Nat                -- seconds
  expires : Option (List Char)        -- `httpdate::fmt_http_date` output
  secure : Bool
  http_only : Bool
  same_site : Option SameSite
  deriving DecidableEq, Repr

/-- `Cookie::new`. -/
def Cookie.new (n v : List Char) : Cookie :=
  { name := n, value := v, path := none, domain := none, max_age := none
    expires := none, secure := false, http_only := false, same_site := none }

/-- One character of `urlencoding::encode`: ASCII alphanumerics and
`-`, `_`, `.`, `~` pass through, everything else becomes `%XX` with
uppercase hex (faithful for ASCII input bytes). -/
def isUnreservedChar (c : Char) : Bool :=
  (65 ≤ c.toNat && c.toNat ≤ 90) || (97 ≤ c.toNat && c.toNat ≤ 122)
    || (48 ≤ c.toNat && c.toNat ≤ 57)
    || c == '-' || c == '_' || c == '.' || c == '~'

def hexDigitUpper (n : Nat) : Char :=
  if n < 10 then Char.ofNat (48 + n) else Char.ofNat (55 + n)

def encodeChar (c : Char) : List Char :=
  if isUnreservedChar c then [c]
  else ['%', hexDigitUpper (c.toNat / 16), hexDigitUpper (c.toNat % 16)]

/-- `urlencoding::encode` on an ASCII string. -/
def urlencode (l : List Char) : List Char := (l.map encodeChar).flatten

def sameSiteStr : SameSite → List Char
  | .Strict => "Strict".toList
  | .Lax => "Lax".toList
  | .None => "None".toList

/-- `Cookie::to_header_value`: `Name=<urlencoded value>` followed by the
set attributes, joined with `"; "`. -/
def Cookie.to_header_value (c : Cookie) : List Char :=
  let parts : List (List Char) :=
    [c.name ++ '=' :: urlencode c.value]
    ++ (match c.path with | some p => ["Path=".toList ++ p] | none => [])
    ++ (match c.domain with | some d => ["Domain=".toList ++ d] | none => [])
    ++ (match c.max_age with
        | some s => ["Max-Age=".toList ++ Nat.toDigits 10 s] | none => [])
    ++ (match c.expires with | some e => ["Expires=".toList ++ e] | none => [])
    ++ (if c.secure then ["Secure".toList] else [])
    ++ (if c.http_only then ["HttpOnly".toList] else [])
    ++ (match c.same_site with
        | some ss => ["SameSite=".toList ++ sameSiteStr ss] | none => [])
  joinSep "; ".toList parts

/-- `Cookie::parse`: split on `;`, trim, split each fragment at its
first `=`, trim name and value; fragments without `=` are dropped.  The
value is NOT url-decoded. -/
def Cookie.parse (cookie_string : List Char) : List Cookie :=
  (splitOnChar ';' cookie_string).filterMap (fun part =>
    let part := trimWS part
    if part = [] then none
    else
      match splitOnceChar '=' part with
      | some (n, v) => some (Cookie.new (trimWS n) (trimWS v))
      | none => none)

/-! ## Auxiliary predicates used in theorem statements -/

/-- Does the string contain two adjacent dots (the substring `..`)? -/
def hasDD : List Char → Bool
  | c₁ :: c₂ :: t => (c₁ == '.' && c₂ == '.') || hasDD (c₂ :: t)
  | _ => false

/-- A well-formed plain header name: no whitespace, no `:`, no `'\r'`,
and not one of the two specially-treated header keys. -/
def goodHeaderName (n : List Char) : Bool :=
  n.all (fun c => !(isWS c) && !(c == ':') && !(c == '\r'))
    && !(asciiLowerStr n == "content-length".toList)
    && !(asciiLowerStr n == "transfer-encoding".toList)

/-- A block of header lines `name:v\r\n`, one per name. -/
def headerLinesOf (ns : List (List Char)) : List Char :=
  (ns.map (fun n => n ++ ":v\r\n".toList)).flatten

/-! ## Concrete configurations used by counterexamples and witnesses -/

/-- A filesystem with one existing directory `d` (and the root), where
every string-level read/write/remove fails. -/
def demoFS : FS :=
  { exists_seg := fun p => p == [] || p == ["d".toList]
    read_ok := fun _ => false
    write_ok := fun _ => false
    remove_ok := fun _ => false }

def demoRoutePost : Route :=
  { path := "/".toList, methods := ["POST".toList], root := []
    default_file := none, redirect := none, cgi := none, list_directory := none }

def demoRouteGet : Route := { demoRoutePost with methods := ["GET".toList] }

def demoRouteDelete : Route := { demoRoutePost with methods := ["DELETE".toList] }

def demoServerPost : ServerConfig :=
  { server_name := "a.example".toList, root := "d".toList, error_pages := []
    routes := [demoRoutePost], default_server := true }

def demoServerGet : ServerConfig := { demoServerPost with routes := [demoRouteGet] }

def demoServerDelete : ServerConfig := { demoServerPost with routes := [demoRouteDelete] }

def demoEscapeRequestPost : HttpRequest :=
  { method := .POST, path := "/../up.txt".toList, args := []
    headers := HttpHeaders.insert [] "content-type".toList "text/plain".toList
    body := "hi".toList }

def demoEscapeRequestGet : HttpRequest := { demoEscapeRequestPost with method := .GET }

def demoEscapeRequestDelete : HttpRequest := { demoEscapeRequestPost with method := .DELETE }

/-- Servers `a.example` / `b.example` on one listener, `b.example`
being the default. -/
def demoServerA : ServerConfig :=
  { server_name := "a.example".toList, root := "d".toList, error_pages := []
    routes := [], default_server := false }

def demoServerB : ServerConfig := { demoServerA with server_name := "b.example".toList, default_server := true }

def demoListener : ListenerInfo :=
  { host := [], port := 80, servers := [demoServerA, demoServerB]
    default_server_index := 1 }

/-- Routes `/` and `/api` on one server, for the longest-prefix example. -/
def demoRouteSlash : Route := { demoRouteGet with path := "/".toList }

def demoRouteApi : Route := { demoRouteGet with path := "/api".toList }

def demoServerRoutes : ServerConfig :=
  { demoServerA with routes := [demoRouteSlash, demoRouteApi] }

/-- A CGI route on `/` for extension `.py`, with PUT allowed. -/
def demoRoutePut : Route := { demoRoutePost with methods := ["PUT".toList] }

def demoServerPut : ServerConfig := { demoServerPost with routes := [demoRoutePut] }

def demoRequestPut : HttpRequest :=
  { demoEscapeRequestPost with method := .Other "PUT".toList, path := "/x".toList }

/-- 102 pairwise-distinct well-formed header names. -/
def demoNames102 : List (List Char) :=
  (List.range 102).map (fun i => ['h', Char.ofNat (97 + i / 26), Char.ofNat (97 + i % 26)])

/-- 101 pairwise-distinct well-formed header names. -/
def demoNames101 : List (List Char) :=
  (List.range 101).map (fun i => ['h', Char.ofNat (97 + i / 26), Char.ofNat (97 + i % 26)])

/-- Decidable equality for `Except`, so that parser results can be
checked by `decide`. -/
instance {ε α : Type} [DecidableEq ε] [DecidableEq α] : DecidableEq (Except ε α) := fun a b =>
  match a, b with
  | .ok x, .ok y =>
    if h : x = y then isTrue (h ▸ rfl) else isFalse (fun hh => h (Except.ok.inj hh))
  | .error e, .error f =>
    if h : e = f then isTrue (h ▸ rfl) else isFalse (fun hh => h (Except.error.inj hh))
  | .ok _, .error _ => isFalse (fun hh => Except.noConfusion hh)
  | .error _, .ok _ => isFalse (fun hh => Except.noConfusion hh)

/-- The parser state after consuming exactly `GET / HTTP/1.1\r\n`. -/
def afterRequestLine : HttpRequestBuilder :=
  { request := { method := .GET, path := "/".toList, args := [], headers := [],
                 body := [] },
    buffer := [], state := .Headers, body_size := 0, chunked := false }

/-! ## C2: fixed-length body handling -/

/-- C2: refuted by the code.  Feeding the complete head plus only 2 of
the 5 declared body bytes in one `append` call makes the parser
transition to `Finish` with the truncated body `"ab"`, instead of
returning `Ok` and remaining in the `Body` state until 5 bytes have
been absorbed. -/
theorem C2_body_truncated_at_finish :
    (HttpRequestBuilder.new.append
        "POST / HTTP/1.1\r\nContent-Length: 5\r\n\r\nab".toList).map
      (fun b => ((b.done, b.state), (b.request.body, b.body_size)))
      = .ok ((true, .Finish), ("ab".toList, 5))
    ∧ ("ab".toList.length ≠ 5) := by
  constructor
  · decide
  · decide

/-! ## C3: incremental parse invariance -/

/-- C3: refuted by the code.  For the valid request `R` below, feeding
`R` whole yields the body `"WXYZ"`, while feeding it as the two chunks
`R[..41]` / `R[41..]` yields a finished request with body `"WX"`:
partitioning changes the parsed request. -/
theorem C3_partition_changes_result :
    (HttpRequestBuilder.new.append
        "POST / HTTP/1.1\r\nContent-Length: 4\r\n\r\nWXYZ".toList).map
      (fun b => (b.done, b.request.body)) = .ok (true, "WXYZ".toList)
    ∧ ((HttpRequestBuilder.new.append
          "POST / HTTP/1.1\r\nContent-Length: 4\r\n\r\nWX".toList).bind
        (fun b => b.append "YZ".toList)).map
      (fun b => (b.done, b.request.body)) = .ok (true, "WX".toList)
    ∧ "WX".toList ≠ "WXYZ".toList := by
  refine ⟨by decide, by decide, by decide⟩

/-! ## C6: CGI QUERY_STRING -/

/-- C6: refuted by the code.  For the spec's own example request
`GET /script.py?x=1`, the parser strips the query into `args`, so the
`CgiContext` (whose `query_string` re-splits the already-stripped
`request.path`) carries an empty `QUERY_STRING`, not `x=1`. -/
theorem C6_query_string_empty :
    (HttpRequestBuilder.new.append
        "GET /script.py?x=1 HTTP/1.1\r\nHost: a.example\r\n\r\n".toList).map
      (fun b => ((b.done, b.request.path),
                 (b.request.args, (CgiContext.from_request b.request).query_string)))
      = .ok ((true, "/script.py".toList), ([("x".toList, "1".toList)], []))
    ∧ ([] : List Char) ≠ "x=1".toList := by
  refine ⟨by decide, by decide⟩

/-! ## C1 counterexample -/

/-- C1 counterexample: a POST whose path escapes the base directory is
answered `500` (the write to the empty resolved path fails), not `404`
as the claim states, even though `resolve_file_path` itself returns
`None`. -/
theorem C1_post_500_counterexample :
    resolve_file_path demoFS demoServerPost demoRoutePost "/../up.txt".toList = none
    ∧ handle_request_outcome demoFS demoServerPost demoEscapeRequestPost "u".toList
        = .status 500
    ∧ HandlerOutcome.status 500 ≠ .status 404 := by
  refine ⟨by decide, by decide, by decide⟩

/-! ## C4 counterexample -/

/-- C4 counterexample: a request with 102 header lines (all with the
same name) is accepted and completes without any error — the cap is
applied to the header map's entry count, which duplicate names do not
increase. -/
theorem C4_duplicate_lines_counterexample :
    (HttpRequestBuilder.new.append
        ("GET / HTTP/1.1\r\n".toList
          ++ (List.replicate 102 "a:v\r\n".toList).flatten ++ "\r\n".toList)).map
      (fun b => (b.done, b.request.headers.length))
      = .ok (true, 1) := by
  decide

/-! ## C7 counterexample -/

/-- C7 counterexample: for `Host: A.EXAMPLE:8080` the hostname used by
the code is `A.EXAMPLE` (no lowercasing), so the server named
`a.example` is NOT selected and dispatch falls back to the default
server `b.example`. -/
theorem C7_lowercase_counterexample :
    extract_hostname (HttpHeaders.insert [] "Host".toList "A.EXAMPLE:8080".toList)
      = "A.EXAMPLE".toList
    ∧ "A.EXAMPLE".toList ≠ "a.example".toList
    ∧ select_server demoListener
        (extract_hostname (HttpHeaders.insert [] "Host".toList "A.EXAMPLE:8080".toList))
        = some demoServerB
    ∧ demoServerB.server_name ≠ "a.example".toList := by
  refine ⟨by decide, by decide, by decide, by decide⟩

/-! ## C9 counterexample -/

/-- C9 counterexample: the cookie built from `("a", "b c")` serializes
to `a=b%20c`, and `Cookie::parse` does not url-decode, so the parsed
value is `b%20c`, not `b c`. -/
theorem C9_space_value_counterexample :
    (Cookie.parse (Cookie.new "a".toList "b c".toList).to_header_value).head?
      = some (Cookie.new "a".toList "b%20c".toList)
    ∧ "b%20c".toList ≠ "b c".toList := by
  refine ⟨by decide, by decide⟩

/-! ## Helper lemmas about `get_line` and the append loop -/

/-- A buffer without `'\r'` contains no CRLF, so `get_line` fails. -/
theorem get_line_none_of_no_cr (l : List Char) (h : '\r' ∉ l) :
    get_line l = none := by
  induction l with
  | nil => rfl
  | cons c t ih =>
    match t, ih with
    | [], _ => rfl
    | c₂ :: t₂, ih =>
      have hc : c ≠ '\r' := fun hc => h (hc ▸ List.mem_cons_self ..)
      have ht : '\r' ∉ c₂ :: t₂ := fun hm => h (List.mem_cons_of_mem _ hm)
      rw [get_line, if_neg (fun hand => hc hand.1), ih ht]
      rfl

/-- `get_line` splits off a `'\r'`-free line before an explicit CRLF. -/
theorem get_line_append (l r : List Char) (h : '\r' ∉ l) :
    get_line (l ++ '\r' :: '\n' :: r) = some (l, r) := by
  induction l with
  | nil => rfl
  | cons c t ih =>
    have hc : c ≠ '\r' := fun hc => h (hc ▸ List.mem_cons_self ..)
    have ht : '\r' ∉ t := fun hm => h (List.mem_cons_of_mem _ hm)
    cases t with
    | nil =>
      show get_line (c :: '\r' :: '\n' :: r) = some ([c], r)
      rw [get_line, if_neg (fun hand => hc hand.1)]
      rfl
    | cons c₂ t₂ =>
      show get_line (c :: c₂ :: (t₂ ++ '\r' :: '\n' :: r)) = _
      rw [get_line, if_neg (fun hand => hc hand.1)]
      rw [show (c₂ :: (t₂ ++ '\r' :: '\n' :: r)) = ((c₂ :: t₂) ++ '\r' :: '\n' :: r) from rfl]
      rw [ih ht]
      rfl

/-- Unfold one loop iteration that returns `Ok`. -/
theorem runB_stop (f : Nat) (b b' : HttpRequestBuilder) (hne : b.buffer ≠ [])
    (hs : stepB b = .stop b') : runB (f + 1) b = .ok b' := by
  rw [runB, if_neg hne, hs]

/-- Unfold one loop iteration that continues. -/
theorem runB_next (f : Nat) (b b' : HttpRequestBuilder) (hne : b.buffer ≠ [])
    (hs : stepB b = .next b') : runB (f + 1) b = runB f b' := by
  rw [runB, if_neg hne, hs]

/-- Unfold one loop iteration that fails. -/
theorem runB_fail (f : Nat) (b : HttpRequestBuilder) (e : ParseErr)
    (hne : b.buffer ≠ []) (hs : stepB b = .fail e) : runB (f + 1) b = .error e := by
  rw [runB, if_neg hne, hs]

/-- In the `Headers` state, an incomplete line (no CRLF in the buffer)
makes the loop iteration return `Ok` with the buffer untouched — with
no cap check. -/
theorem stepB_headers_incomplete (req : HttpRequest) (l : List Char) (bs : Nat)
    (ch : Bool) (hnone : get_line l = none) :
    stepB { request := req, buffer := l, state := .Headers, body_size := bs,
            chunked := ch }
      = .stop { request := req, buffer := l, state := .Headers, body_size := bs,
                chunked := ch } := by
  simp only [stepB]
  rw [hnone]

/-- `append` of a CRLF-free chunk in the `Headers` state returns `Ok`
and leaves the whole chunk buffered. -/
theorem append_headers_incomplete (req : HttpRequest) (l : List Char) (bs : Nat)
    (ch : Bool) (hnone : get_line l = none) (hne : l ≠ []) :
    HttpRequestBuilder.append
        { request := req, buffer := [], state := .Headers, body_size := bs,
          chunked := ch } l
      = .ok { request := req, buffer := l, state := .Headers, body_size := bs,
              chunked := ch } := by
  unfold HttpRequestBuilder.append
  simp only [List.nil_append]
  refine runB_stop _ _ _ hne ?_
  exact stepB_headers_incomplete req l bs ch hnone

/-! ## C5: the byte-cap invariant -/

/-- C5: refuted by the code.  After the request line, an incomplete
header line of 16385 bytes (no CRLF yet) is buffered whole while
`append` returns `Ok` and stays in the `Headers` state: unlike the
`Init` state, the `Headers` state has no cap check for incomplete
lines, so the unconsumed buffer exceeds the 16 KiB cap without an
error. -/
theorem C5_buffer_exceeds_cap :
    HttpRequestBuilder.new.append "GET / HTTP/1.1\r\n".toList = .ok afterRequestLine
    ∧ afterRequestLine.append (List.replicate 16385 'a')
        = .ok { request := afterRequestLine.request,
                buffer := List.replicate 16385 'a', state := .Headers,
                body_size := 0, chunked := false }
    ∧ MAX_HEADER_SIZE < (List.replicate 16385 'a').length := by
  refine ⟨by decide, ?_, by rw [List.length_replicate]; decide⟩
  have hnone : get_line (List.replicate 16385 'a') = none := by
    refine get_line_none_of_no_cr _ ?_
    intro hm
    exact absurd (List.mem_replicate.mp hm).2 (by decide)
  have hne : (List.replicate 16385 'a') ≠ [] := by
    intro h
    have h2 := congrArg List.length h
    simp only [List.length_replicate, List.length_nil] at h2
    exact absurd h2 (by decide)
  exact append_headers_incomplete _ _ _ _ hnone hne

/-! ## C10: non-GET/POST/DELETE methods -/

/-- `handle_method_not_allowed` answers 405 whether or not the error
page is readable. -/
theorem handle_method_not_allowed_status_eq (fs : FS) (server : ServerConfig) :
    handle_method_not_allowed_status fs server = 405 := by
  simp only [handle_method_not_allowed_status, ite_self]

/-- C10: for a request whose method parses to `Other` (not GET, POST or
DELETE), a route without a redirect and with no applicable CGI
extension always produces `405 Method Not Allowed` — even when the
method's name is listed in the route's allowed methods (no hypothesis
below excludes that): if the allowed-methods check fails the 405 branch
fires, and if it succeeds the `Other` arm of the dispatch match calls
`handle_method_not_allowed` anyway. -/
theorem C10_other_method_405 (fs : FS) (server : ServerConfig)
    (req : HttpRequest) (route : Route) (m uuidName : List Char)
    (hm : req.method = .Other m)
    (hroute : find_matching_route server req.path = some route)
    (hnored : route.redirect = none)
    (hnocgi : ∀ ext, route.cgi = some ext → ext.isSuffixOf req.path = false) :
    handle_request_outcome fs server req uuidName = .status 405 := by
  simp only [handle_request_outcome, hroute, hnored]
  have hdisp : dispatch_method_outcome fs server req
      ((resolve_file_path fs server route req.path).getD []) uuidName
      = .status 405 := by
    unfold dispatch_method_outcome
    rw [hm]
    rw [handle_method_not_allowed_status_eq]
  by_cases hall : (route.methods.any (fun mm => HttpMethod.from_str mm == req.method)) = true
  · rw [if_pos hall]
    cases hcgi : route.cgi with
    | none => exact hdisp
    | some ext =>
      simp only [hnocgi ext hcgi, Bool.false_eq_true, if_false]
      exact hdisp
  · rw [if_neg hall]
    rw [handle_method_not_allowed_status_eq]

/-- Witness for C10: a route allowing `PUT`, a `PUT` request on it —
the allowed-methods check passes, yet the answer is 405. -/
theorem C10_other_method_405_witness :
    (demoRoutePut.methods.any
        (fun mm => HttpMethod.from_str mm == demoRequestPut.method)) = true
    ∧ handle_request_outcome demoFS demoServerPut demoRequestPut "u".toList
        = .status 405 := by
  refine ⟨by decide, ?_⟩
  refine C10_other_method_405 demoFS demoServerPut demoRequestPut demoRoutePut
    "PUT".toList "u".toList (by decide) (by decide) (by decide) ?_
  intro ext h
  rw [show demoRoutePut.cgi = none from rfl] at h
  cases h

/-! ## C8: longest-prefix routing -/

theorem pickMaxRoute_none (l : List Route) :
    ∀ acc, (pickMaxRoute acc l = none ↔ acc = none ∧ l = []) := by
  induction l with
  | nil =>
    intro acc
    cases acc <;> simp [pickMaxRoute]
  | cons r t ih =>
    intro acc
    cases acc with
    | none =>
      rw [pickMaxRoute]
      simp only [ih]
      simp
    | some m =>
      rw [pickMaxRoute]
      simp only [ih]
      simp

theorem pickMaxRoute_mem (l : List Route) :
    ∀ acc r, pickMaxRoute acc l = some r → acc = some r ∨ r ∈ l := by
  induction l with
  | nil =>
    intro acc r h
    cases acc with
    | none => cases h
    | some m => exact .inl (by rw [pickMaxRoute] at h; rw [h])
  | cons x t ih =>
    intro acc r h
    cases acc with
    | none =>
      rw [pickMaxRoute] at h
      rcases ih _ r h with h1 | h1
      · exact .inr (by rw [Option.some.inj h1]; exact List.mem_cons_self ..)
      · exact .inr (List.mem_cons_of_mem _ h1)
    | some m =>
      rw [pickMaxRoute] at h
      rcases ih _ r h with h1 | h1
      · by_cases hle : m.path.length ≤ x.path.length
        · rw [if_pos hle] at h1
          exact .inr (by rw [Option.some.inj h1]; exact List.mem_cons_self ..)
        · rw [if_neg hle] at h1
          exact .inl h1
      · exact .inr (List.mem_cons_of_mem _ h1)

theorem pickMaxRoute_max (l : List Route) :
    ∀ acc r, pickMaxRoute acc l = some r →
      (∀ x ∈ l, x.path.length ≤ r.path.length)
      ∧ (∀ a, acc = some a → a.path.length ≤ r.path.length) := by
  induction l with
  | nil =>
    intro acc r h
    constructor
    · intro x hx
      cases hx
    · intro a ha
      cases acc with
      | none => cases ha
      | some m =>
        rw [pickMaxRoute] at h
        rw [← Option.some.inj ha, ← Option.some.inj h]
  | cons x t ih =>
    intro acc r h
    cases acc with
    | none =>
      rw [pickMaxRoute] at h
      have hmax := ih _ r h
      refine ⟨?_, by intro a ha; cases ha⟩
      intro y hy
      rcases List.mem_cons.mp hy with h1 | h1
      · exact h1 ▸ hmax.2 x rfl
      · exact hmax.1 y h1
    | some m =>
      rw [pickMaxRoute] at h
      have hmax := ih _ r h
      constructor
      · intro y hy
        rcases List.mem_cons.mp hy with h1 | h1
        · by_cases hle : m.path.length ≤ x.path.length
          · exact h1 ▸ hmax.2 _ (by rw [if_pos hle])
          · have hxm : x.path.length ≤ m.path.length := Nat.le_of_not_le hle
            have := hmax.2 _ (by rw [if_neg hle])
            exact h1 ▸ Nat.le_trans hxm this
        · exact hmax.1 y h1
      · intro a ha
        rw [← Option.some.inj ha]
        by_cases hle : m.path.length ≤ x.path.length
        · exact Nat.le_trans hle (hmax.2 _ (by rw [if_pos hle]))
        · exact hmax.2 _ (by rw [if_neg hle])

/-- C8: `find_matching_route` returns `none` exactly when no route
matches (the `404` page is then served, see `handle_request_outcome`),
and otherwise returns a matching route of maximal path length among the
matching routes; on the spec's example (`/` and `/api` against
`/api/v1`) it picks `/api`. -/
theorem C8_longest_route_match (server : ServerConfig) (rp : List Char) :
    (find_matching_route server rp = none
      ↔ ∀ r ∈ server.routes, routeMatches rp r = false)
    ∧ (∀ r, find_matching_route server rp = some r →
        r ∈ server.routes ∧ routeMatches rp r = true
        ∧ ∀ r' ∈ server.routes, routeMatches rp r' = true
            → r'.path.length ≤ r.path.length)
    ∧ find_matching_route demoServerRoutes "/api/v1".toList = some demoRouteApi
    ∧ (∀ fsx reqx u, find_matching_route server reqx.path = none →
        handle_request_outcome fsx server reqx u
          = .status (serve_error_page_status fsx (get_error_page_path server 404) 404)) := by
  refine ⟨?_, ?_, by decide, ?_⟩
  · rw [find_matching_route, pickMaxRoute_none]
    simp only [true_and]
    rw [List.filter_eq_nil_iff]
    constructor
    · intro h r hr
      exact Bool.eq_false_iff.mpr (h r hr)
    · intro h r hr hmatch
      rw [h r hr] at hmatch
      cases hmatch
  · intro r h
    rw [find_matching_route] at h
    have hmem := pickMaxRoute_mem _ _ r h
    have hmax := (pickMaxRoute_max _ _ r h).1
    rcases hmem with h1 | h1
    · cases h1
    · have := List.mem_filter.mp h1
      refine ⟨this.1, this.2, ?_⟩
      intro r' hr' hmatch'
      exact hmax r' (List.mem_filter.mpr ⟨hr', hmatch'⟩)
  · intro fsx reqx u hnone
    unfold handle_request_outcome
    rw [hnone]

/-- Witness for C8: instantiating the characterization at the concrete
two-route server shows the selected route `/api` matches `/api/v1` and
has maximal path length among matching routes. -/
theorem C8_longest_route_match_witness :
    demoRouteApi ∈ demoServerRoutes.routes
    ∧ routeMatches "/api/v1".toList demoRouteApi = true
    ∧ ∀ r' ∈ demoServerRoutes.routes, routeMatches "/api/v1".toList r' = true
        → r'.path.length ≤ demoRouteApi.path.length := by
  exact (C8_longest_route_match demoServerRoutes "/api/v1".toList).2.1
    demoRouteApi (C8_longest_route_match demoServerRoutes "/api/v1".toList).2.2.1

/-! ## C7: hostname extraction and virtual-host selection -/

theorem splitOnChar_ne_nil (sep : Char) (l : List Char) :
    splitOnChar sep l ≠ [] := by
  cases l with
  | nil => simp [splitOnChar]
  | cons c t =>
    rw [splitOnChar]
    by_cases h : c = sep
    · simp [h]
    · rw [if_neg h]
      cases hs : splitOnChar sep t <;> simp

theorem splitOnChar_headD (sep : Char) (l : List Char) :
    (splitOnChar sep l).headD [] = l.takeWhile (fun c => !(c == sep)) := by
  induction l with
  | nil => rfl
  | cons c t ih =>
    rw [splitOnChar, List.takeWhile_cons]
    by_cases h : c = sep
    · simp [h]
    · rw [if_neg h]
      have hbeq : (!(c == sep)) = true := by simp [h]
      rw [hbeq, if_pos rfl]
      cases hs : splitOnChar sep t with
      | nil => exact absurd hs (splitOnChar_ne_nil sep t)
      | cons hd r =>
        have : hd = List.takeWhile (fun c => !(c == sep)) t := by
          rw [← ih, hs]
          rfl
        simp [this]

/-- C7 amended: the hostname used for virtual-host selection is the
`Host` header value truncated at the first `:` — with NO lowercasing —
and the empty string when the header is absent; the first server whose
`server_name` equals that hostname exactly (case-sensitively) is
selected, and otherwise the server at the listener's default index.
The spec's host-dispatch example behaves as stated for exact-case
hostnames. -/
theorem C7_host_selection (hdrs : AssocMap) (L : ListenerInfo)
    (hostname : List Char) :
    (∀ v, HttpHeaders.get hdrs "host".toList = some v →
        extract_hostname hdrs = v.takeWhile (fun c => !(c == ':')))
    ∧ (HttpHeaders.get hdrs "host".toList = none → extract_hostname hdrs = [])
    ∧ (∀ s, L.servers.find? (fun x => x.server_name == hostname) = some s →
        select_server L hostname = some s ∧ s.server_name = hostname ∧ s ∈ L.servers)
    ∧ ((∀ s ∈ L.servers, s.server_name ≠ hostname) →
        select_server L hostname = L.servers.get? L.default_server_index)
    ∧ select_server demoListener "a.example".toList = some demoServerA
    ∧ select_server demoListener "unknown".toList = some demoServerB := by
  refine ⟨?_, ?_, ?_, ?_, by decide, by decide⟩
  · intro v hv
    unfold extract_hostname
    rw [hv]
    exact splitOnChar_headD ':' v
  · intro hnone
    unfold extract_hostname
    rw [hnone]
  · intro s hs
    refine ⟨?_, ?_, List.mem_of_find?_eq_some hs⟩
    · unfold select_server
      rw [hs]
    · have := List.find?_some hs
      exact beq_iff_eq.mp this
  · intro hnomatch
    unfold select_server
    rw [List.find?_eq_none.mpr ?_]
    intro x hx
    simp only [beq_iff_eq]
    exact hnomatch x hx

/-- Witness for C7: the amended behavior at the concrete listener —
`Host: a.example` selects the first server, an unknown hostname the
default, and `Host: A.EXAMPLE:8080` yields hostname `A.EXAMPLE`. -/
theorem C7_host_selection_witness :
    extract_hostname (HttpHeaders.insert [] "Host".toList "a.example:8080".toList)
      = "a.example:8080".toList.takeWhile (fun c => !(c == ':'))
    ∧ select_server demoListener "a.example".toList = some demoServerA
    ∧ select_server demoListener "unknown".toList = some demoServerB := by
  refine ⟨?_, (C7_host_selection [] demoListener []).2.2.2.2.1,
    (C7_host_selection [] demoListener []).2.2.2.2.2⟩
  exact (C7_host_selection
      (HttpHeaders.insert [] "Host".toList "a.example:8080".toList)
      demoListener []).1 "a.example:8080".toList (by decide)

/-! ## C9: cookie serialize/parse round-trip -/

/-- Characters produced by `urlencode` are never whitespace, `;` or
`=` (for ASCII input). -/
theorem urlencode_chars_good (v : List Char) (hascii : ∀ c ∈ v, c.toNat < 128) :
    ∀ c ∈ urlencode v, isWS c = false ∧ c ≠ ';' ∧ c ≠ '=' := by
  intro c hc
  unfold urlencode at hc
  rcases List.mem_flatten.mp hc with ⟨enc, hencmem, hcenc⟩
  rcases List.mem_map.mp hencmem with ⟨orig, horig, henc⟩
  subst henc
  unfold encodeChar at hcenc
  by_cases hres : isUnreservedChar orig = true
  · rw [if_pos hres] at hcenc
    have hco : c = orig := List.mem_singleton.mp hcenc
    subst hco
    have hr : (65 ≤ c.toNat ∧ c.toNat ≤ 90) ∨ (97 ≤ c.toNat ∧ c.toNat ≤ 122)
        ∨ (48 ≤ c.toNat ∧ c.toNat ≤ 57) ∨ c = '-' ∨ c = '_' ∨ c = '.' ∨ c = '~' := by
      unfold isUnreservedChar at hres
      simp only [Bool.or_eq_true, Bool.and_eq_true, decide_eq_true_eq,
        beq_iff_eq] at hres
      tauto
    have hnum : (65 ≤ c.toNat ∧ c.toNat ≤ 90) ∨ (97 ≤ c.toNat ∧ c.toNat ≤ 122)
        ∨ (48 ≤ c.toNat ∧ c.toNat ≤ 57) ∨ c.toNat = 45 ∨ c.toNat = 95
        ∨ c.toNat = 46 ∨ c.toNat = 126 := by
      rcases hr with h | h | h | h | h | h | h
      · exact .inl h
      · exact .inr (.inl h)
      · exact .inr (.inr (.inl h))
      · exact .inr (.inr (.inr (.inl (by rw [h]; rfl))))
      · exact .inr (.inr (.inr (.inr (.inl (by rw [h]; rfl)))))
      · exact .inr (.inr (.inr (.inr (.inr (.inl (by rw [h]; rfl))))))
      · exact .inr (.inr (.inr (.inr (.inr (.inr (by rw [h]; rfl))))))
    refine ⟨?_, ?_, ?_⟩
    · by_contra hws
      have hws' : isWS c = true := by
        cases hb : isWS c
        · exact absurd hb hws
        · rfl
      have : c.toNat = 32 ∨ c.toNat = 9 ∨ c.toNat = 10 ∨ c.toNat = 13
          ∨ c.toNat = 11 ∨ c.toNat = 12 := by
        unfold isWS at hws'
        simp only [Bool.or_eq_true, beq_iff_eq] at hws'
        rcases hws' with ((((h | h) | h) | h) | h) | h
        · exact .inl (by rw [h]; rfl)
        · exact .inr (.inl (by rw [h]; rfl))
        · exact .inr (.inr (.inl (by rw [h]; rfl)))
        · exact .inr (.inr (.inr (.inl (by rw [h]; rfl))))
        · exact .inr (.inr (.inr (.inr (.inl (by simpa using h)))))
        · exact .inr (.inr (.inr (.inr (.inr (by simpa using h)))))
      omega
    · intro he
      subst he
      revert hnum
      decide
    · intro he
      subst he
      revert hnum
      decide
  · rw [if_neg hres] at hcenc
    have h16a : orig.toNat / 16 < 16 := by
      have := hascii orig horig
      omega
    have h16b : orig.toNat % 16 < 16 := Nat.mod_lt _ (by omega)
    have hgood : ∀ n, n < 16 →
        isWS (hexDigitUpper n) = false ∧ hexDigitUpper n ≠ ';'
          ∧ hexDigitUpper n ≠ '=' := by
      intro n hn
      interval_cases n <;> exact (by decide)
    simp only [List.mem_cons, List.not_mem_nil, or_false] at hcenc
    rcases hcenc with h | h | h
    · subst h
      exact ⟨by decide, by decide, by decide⟩
    · subst h
      exact hgood _ h16a
    · subst h
      exact hgood _ h16b

/-- `trimWS` is the identity on whitespace-free strings. -/
theorem trimWS_all (l : List Char) (h : ∀ c ∈ l, isWS c = false) :
    trimWS l = l := by
  have hdrop : ∀ m : List Char, (∀ c ∈ m, isWS c = false) → m.dropWhile isWS = m := by
    intro m hm
    cases m with
    | nil => rfl
    | cons a t =>
      rw [List.dropWhile_cons, hm a (List.mem_cons_self ..)]
      simp
  unfold trimWS
  rw [hdrop l h]
  rw [hdrop l.reverse (fun c hc => h c (List.mem_reverse.mp hc))]
  exact List.reverse_reverse l

/-- `split_once` at an explicit separator occurrence. -/
theorem splitOnceChar_append (sep : Char) (n r : List Char) (h : sep ∉ n) :
    splitOnceChar sep (n ++ sep :: r) = some (n, r) := by
  induction n with
  | nil =>
    rw [List.nil_append, splitOnceChar, if_pos rfl]
  | cons c t ih =>
    have hc : c ≠ sep := fun hc => h (hc ▸ List.mem_cons_self ..)
    have ht : sep ∉ t := fun hm => h (List.mem_cons_of_mem _ hm)
    rw [List.cons_append, splitOnceChar, if_neg hc, ih ht]
    rfl

/-- `takeWhile` runs through a prefix on which the predicate holds. -/
theorem takeWhile_append_all (p : Char → Bool) (l r : List Char)
    (h : ∀ c ∈ l, p c = true) :
    (l ++ r).takeWhile p = l ++ r.takeWhile p := by
  induction l with
  | nil => rfl
  | cons c t ih =>
    rw [List.cons_append, List.takeWhile_cons, h c (List.mem_cons_self ..)]
    simp only [if_true]
    rw [ih (fun c hc => h c (List.mem_cons_of_mem _ hc))]
    rw [List.cons_append]

/-- C9 amended: parsing `to_header_value` recovers the cookie's name
and its URL-ENCODED value — not the original value, since `parse` never
url-decodes.  The original value is recovered exactly when encoding
leaves it unchanged (in particular whenever it consists of unreserved
characters).  Stated for names free of `;`, `=` and whitespace and
ASCII values. -/
theorem C9_cookie_roundtrip (c : Cookie)
    (hsemi : ';' ∉ c.name) (heq : '=' ∉ c.name)
    (hws : ∀ ch ∈ c.name, isWS ch = false)
    (hval : ∀ ch ∈ c.value, ch.toNat < 128) :
    (Cookie.parse c.to_header_value).head?
        = some (Cookie.new c.name (urlencode c.value))
    ∧ (c.value.all isUnreservedChar = true → urlencode c.value = c.value) := by
  have hgood := urlencode_chars_good c.value hval
  constructor
  · set p₁ := c.name ++ '=' :: urlencode c.value with hp₁
    -- every character of the first part survives `takeWhile (· ≠ ';')`
    have hallsemi : ∀ ch ∈ p₁, (!(ch == ';')) = true := by
      intro ch hch
      rcases List.mem_append.mp hch with h | h
      · simp only [Bool.not_eq_eq_eq_not, Bool.not_true, beq_eq_false_iff_ne]
        exact fun hc => hsemi (hc ▸ h)
      · rcases List.mem_cons.mp h with h | h
        · subst h
          decide
        · simp only [Bool.not_eq_eq_eq_not, Bool.not_true, beq_eq_false_iff_ne]
          exact (hgood ch h).2.1
    have hallws : ∀ ch ∈ p₁, isWS ch = false := by
      intro ch hch
      rcases List.mem_append.mp hch with h | h
      · exact hws ch h
      · rcases List.mem_cons.mp h with h | h
        · subst h
          decide
        · exact (hgood ch h).1
    -- the header value is the first part joined with the attribute parts
    obtain ⟨rest, hform⟩ : ∃ rest,
        c.to_header_value = joinSep "; ".toList (p₁ :: rest) := by
      refine ⟨(match c.path with
          | some p => ["Path=".toList ++ p] | none => []) ++
        ((match c.domain with
          | some d => ["Domain=".toList ++ d] | none => []) ++
        ((match c.max_age with
          | some s => ["Max-Age=".toList ++ Nat.toDigits 10 s] | none => []) ++
        ((match c.expires with
          | some e => ["Expires=".toList ++ e] | none => []) ++
        ((if c.secure = true then ["Secure".toList] else []) ++
        ((if c.http_only = true then ["HttpOnly".toList] else []) ++
        (match c.same_site with
          | some ss => ["SameSite=".toList ++ sameSiteStr ss] | none => [])))))), ?_⟩
      simp only [Cookie.to_header_value, List.singleton_append,
        List.cons_append, List.append_assoc, List.nil_append]
    -- the first fragment of the split is exactly the first part
    have hhead : (splitOnChar ';' c.to_header_value).headD [] = p₁ := by
      rw [hform]
      cases rest with
      | nil =>
        rw [show joinSep "; ".toList [p₁] = p₁ from rfl]
        rw [splitOnChar_headD]
        have h1 := takeWhile_append_all (fun ch => !(ch == ';')) p₁ [] hallsemi
        rw [List.append_nil] at h1
        rw [h1, List.takeWhile_nil, List.append_nil]
      | cons q qs =>
        rw [show joinSep "; ".toList (p₁ :: q :: qs)
              = p₁ ++ ';' :: ' ' :: joinSep "; ".toList (q :: qs) from by
          rw [joinSep, List.append_assoc]
          rfl]
        rw [splitOnChar_headD]
        rw [takeWhile_append_all _ _ _ hallsemi]
        rw [show List.takeWhile (fun ch => !(ch == ';'))
              (';' :: ' ' :: joinSep "; ".toList (q :: qs)) = [] from by
          rw [List.takeWhile_cons]
          simp]
        exact List.append_nil p₁
    obtain ⟨hd, tail, hsplit⟩ :=
      List.exists_cons_of_ne_nil (splitOnChar_ne_nil ';' c.to_header_value)
    have hhd : hd = p₁ := by
      rw [hsplit] at hhead
      exact hhead
    subst hhd
    -- the first fragment parses to the expected cookie
    have htrim : trimWS p₁ = p₁ := trimWS_all p₁ hallws
    have hne : p₁ ≠ [] := by
      rw [hp₁]
      cases c.name <;> simp
    have honce : splitOnceChar '=' p₁ = some (c.name, urlencode c.value) :=
      splitOnceChar_append '=' c.name (urlencode c.value) heq
    have htrimname : trimWS c.name = c.name := trimWS_all c.name hws
    have htrimenc : trimWS (urlencode c.value) = urlencode c.value :=
      trimWS_all _ (fun ch hch => (hgood ch hch).1)
    unfold Cookie.parse
    rw [hsplit, List.filterMap_cons]
    simp only [htrim]
    rw [if_neg hne]
    simp only [honce, htrimname, htrimenc]
    rfl
  · intro hall
    have : ∀ v : List Char, v.all isUnreservedChar = true → urlencode v = v := by
      intro v hv
      induction v with
      | nil => rfl
      | cons ch t ih =>
        rw [List.all_cons, Bool.and_eq_true] at hv
        unfold urlencode
        rw [List.map_cons, List.flatten_cons]
        rw [show encodeChar ch = [ch] from by unfold encodeChar; rw [if_pos hv.1]]
        rw [show (List.map encodeChar t).flatten = urlencode t from rfl, ih hv.2]
        rfl
    exact this c.value hall

/-- Witness for C9: round-tripping the cookie `("session", "x y")`
yields the encoded value `x%20y`; round-tripping `("id", "abc")`
(unreserved characters only) recovers the value verbatim. -/
theorem C9_cookie_roundtrip_witness :
    (Cookie.parse (Cookie.new "session".toList "x y".toList).to_header_value).head?
      = some (Cookie.new "session".toList "x%20y".toList)
    ∧ urlencode "abc".toList = "abc".toList := by
  constructor
  · have h := (C9_cookie_roundtrip (Cookie.new "session".toList "x y".toList)
      (by decide) (by decide) (by decide) (by decide)).1
    rw [h]
    decide
  · exact (C9_cookie_roundtrip (Cookie.new "id".toList "abc".toList)
      (by decide) (by decide) (by decide) (by decide)).2 (by decide)

/-! ## C4: header caps -/

/-- Consuming the request line `GET / HTTP/1.1` moves the parser to the
`Headers` state with the rest of the buffer untouched. -/
theorem stepB_reqline (L : List Char) :
    stepB { request := { method := .GET, path := [], args := [], headers := [],
                         body := [] },
            buffer := "GET / HTTP/1.1\r\n".toList ++ L, state := .Init,
            body_size := 0, chunked := false }
      = .next { request := { method := .GET, path := "/".toList, args := [],
                             headers := [], body := [] },
                buffer := L, state := .Headers, body_size := 0,
                chunked := false } := by
  have hgl : get_line ("GET / HTTP/1.1\r\n".toList ++ L)
      = some ("GET / HTTP/1.1".toList, L) := by
    rw [show ("GET / HTTP/1.1\r\n".toList ++ L)
          = ("GET / HTTP/1.1".toList ++ '\r' :: '\n' :: L) from rfl]
    exact get_line_append _ L (by decide)
  simp only [stepB]
  rw [hgl]
  rfl

/-- Reduce a full `append` on a fresh builder to the loop behavior on
the part after the request line. -/
theorem append_via_reqline (L : List Char) (k : Except ParseErr HttpRequestBuilder)
    (h : ∀ f, L.length < f →
      runB f { request := { method := .GET, path := "/".toList, args := [],
                            headers := [], body := [] },
               buffer := L, state := .Headers, body_size := 0,
               chunked := false } = k) :
    HttpRequestBuilder.new.append ("GET / HTTP/1.1\r\n".toList ++ L) = k := by
  unfold HttpRequestBuilder.append HttpRequestBuilder.new
  simp only [List.nil_append]
  rw [runB_next _ _ _ (by simp) (stepB_reqline L)]
  refine h _ ?_
  rw [List.length_append]
  have : ("GET / HTTP/1.1\r\n".toList).length = 16 := rfl
  omega

/-- C4 part (i): a single completed header line longer than 16 KiB is
rejected. -/
theorem header_line_too_long (line : List Char) (hcr : '\r' ∉ line)
    (hlen : MAX_HEADER_SIZE < line.length) :
    HttpRequestBuilder.new.append
        ("GET / HTTP/1.1\r\n".toList ++ (line ++ "\r\n".toList))
      = .error .headerCapExceeded := by
  refine append_via_reqline _ _ ?_
  intro f hf
  have hne : line ≠ [] := by
    intro h
    rw [h] at hlen
    exact absurd hlen (by decide)
  obtain ⟨f', rfl⟩ : ∃ f', f = f' + 1 := by
    cases f with
    | zero => exact absurd hf (by omega)
    | succ f' => exact ⟨f', rfl⟩
  refine runB_fail _ _ _ (by simp [hne]) ?_
  simp only [stepB]
  rw [show (line ++ "\r\n".toList) = (line ++ '\r' :: '\n' :: ([] : List Char)) from rfl]
  rw [get_line_append _ _ hcr]
  simp only []
  rw [if_neg hne]
  rw [if_pos (Or.inr hlen : MAX_HEADER_COUNT
      < ([] : AssocMap).length ∨ MAX_HEADER_SIZE < line.length)]

theorem goodHeaderName_spec (n : List Char) (h : goodHeaderName n = true) :
    (∀ c ∈ n, isWS c = false) ∧ ':' ∉ n ∧ '\r' ∉ n
    ∧ asciiLowerStr n ≠ "content-length".toList
    ∧ asciiLowerStr n ≠ "transfer-encoding".toList := by
  unfold goodHeaderName at h
  simp only [Bool.and_eq_true, List.all_eq_true, Bool.not_eq_true',
    beq_eq_false_iff_ne] at h
  obtain ⟨⟨hall, hcl⟩, hte⟩ := h
  refine ⟨?_, ?_, ?_, hcl, hte⟩
  · intro c hc
    exact (hall c hc).1.1
  · intro hmem
    exact absurd rfl (hall ':' hmem).1.2
  · intro hmem
    exact absurd rfl (hall '\r' hmem).2

theorem assocGet_append_none (m : AssocMap) (k k' v : List Char)
    (h : assocGet m k = none) (hne : k' ≠ k) :
    assocGet (m ++ [(k', v)]) k = none := by
  have hb : (k' == k) = false := beq_eq_false_iff_ne.mpr hne
  induction m with
  | nil =>
    simp only [List.nil_append, assocGet, List.find?, hb]
    rfl
  | cons p t ih =>
    unfold assocGet at h ⊢
    rw [List.cons_append, List.find?]
    cases hp : (p.1 == k) with
    | true =>
      rw [List.find?, hp] at h
      cases h
    | false =>
      rw [List.find?, hp] at h
      exact ih h

theorem assocInsert_fresh (m : AssocMap) (k v : List Char)
    (h : assocGet m k = none) :
    assocInsert m k v = m ++ [(k, v)] := by
  unfold assocInsert
  rw [if_neg ?_]
  intro hany
  rcases List.any_eq_true.mp hany with ⟨p, hp, hpk⟩
  unfold assocGet at h
  rw [Option.map_eq_none'] at h
  rw [List.find?_eq_none] at h
  exact h p hp hpk

/-- The shape of a plain header-line buffer. -/
theorem headerLine_shape (n : List Char) (rest : List Char) :
    (n ++ ":v\r\n".toList) ++ rest = (n ++ [':', 'v']) ++ '\r' :: '\n' :: rest := by
  simp only [List.append_assoc, List.cons_append, List.nil_append]
  rfl

/-- Processing one well-formed header line when the map is already over
the cap (or the line over the size cap) fails. -/
theorem stepB_header_guard_fail (mth : HttpMethod) (pth : List Char)
    (ar m : AssocMap) (bd : List Char) (bs : Nat) (ch : Bool)
    (n rest : List Char) (hcr : '\r' ∉ n)
    (hm : MAX_HEADER_COUNT < m.length ∨ MAX_HEADER_SIZE < (n ++ [':', 'v']).length) :
    stepB { request := { method := mth, path := pth, args := ar, headers := m,
                         body := bd },
            buffer := (n ++ ":v\r\n".toList) ++ rest, state := .Headers,
            body_size := bs, chunked := ch }
      = .fail .headerCapExceeded := by
  have hcr' : '\r' ∉ (n ++ [':', 'v']) := by
    intro hmem
    rcases List.mem_append.mp hmem with h | h
    · exact hcr h
    · revert h
      decide
  have hne : (n ++ [':', 'v']) ≠ [] := by simp
  simp only [stepB]
  rw [headerLine_shape, get_line_append _ _ hcr']
  simp only []
  rw [if_neg hne, if_pos hm]

/-- Processing one well-formed fresh header line below the caps inserts
it and continues. -/
theorem stepB_header_insert (mth : HttpMethod) (pth : List Char)
    (ar m : AssocMap) (bd : List Char) (bs : Nat) (ch : Bool)
    (n rest : List Char) (hgood : goodHeaderName n = true)
    (hm : ¬ (MAX_HEADER_COUNT < m.length ∨ MAX_HEADER_SIZE < (n ++ [':', 'v']).length)) :
    stepB { request := { method := mth, path := pth, args := ar, headers := m,
                         body := bd },
            buffer := (n ++ ":v\r\n".toList) ++ rest, state := .Headers,
            body_size := bs, chunked := ch }
      = .next { request := { method := mth, path := pth, args := ar,
                             headers := HttpHeaders.insert m n ['v'], body := bd },
                buffer := rest, state := .Headers, body_size := bs,
                chunked := ch } := by
  obtain ⟨hws, hcolon, hcr, hcl, hte⟩ := goodHeaderName_spec n hgood
  have hcr' : '\r' ∉ (n ++ [':', 'v']) := by
    intro hmem
    rcases List.mem_append.mp hmem with h | h
    · exact hcr h
    · revert h
      decide
  have hne : (n ++ [':', 'v']) ≠ [] := by simp
  have honce : splitOnceChar ':' (n ++ [':', 'v']) = some (n, ['v']) :=
    splitOnceChar_append ':' n ['v'] hcolon
  have htrimn : trimWS n = n := trimWS_all n hws
  have htrimv : trimWS ['v'] = ['v'] := by decide
  simp only [stepB]
  rw [headerLine_shape, get_line_append _ _ hcr']
  simp only []
  rw [if_neg hne, if_neg hm, honce]
  simp only [htrimn, htrimv]
  rw [if_neg hcl, if_neg (fun hand => hte hand.1)]

/-- Feeding well-formed header lines with pairwise-distinct fresh
(lowercased) names on top of a header map `m`: as soon as a line is
processed while the map already exceeds `MAX_HEADER_COUNT` entries, the
parser fails with the cap error.  With `m.length + ns.length` above
`MAX_HEADER_COUNT + 1` this is guaranteed to happen. -/
theorem headers_count_error (ns : List (List Char)) :
    ∀ (m : AssocMap) (mth : HttpMethod) (pth : List Char) (ar : AssocMap)
      (bd extra : List Char) (bs : Nat) (ch : Bool) (f : Nat),
    (∀ n ∈ ns, goodHeaderName n = true) →
    ns.Pairwise (fun a b => asciiLowerStr a ≠ asciiLowerStr b) →
    (∀ n ∈ ns, assocGet m (asciiLowerStr n) = none) →
    m.length ≤ MAX_HEADER_COUNT + 1 →
    MAX_HEADER_COUNT + 1 < m.length + ns.length →
    (headerLinesOf ns ++ extra).length < f →
    runB f { request := { method := mth, path := pth, args := ar, headers := m,
                          body := bd },
             buffer := headerLinesOf ns ++ extra, state := .Headers,
             body_size := bs, chunked := ch }
      = .error .headerCapExceeded := by
  induction ns with
  | nil =>
    intro m _ _ _ _ _ _ _ _ _ _ _ hle hcount _
    simp only [List.length_nil] at hcount
    omega
  | cons n ns' ih =>
    intro m mth pth ar bd extra bs ch f hgood hpw hfresh hle hcount hf
    have hlines : headerLinesOf (n :: ns') ++ extra
        = (n ++ ":v\r\n".toList) ++ (headerLinesOf ns' ++ extra) := by
      simp only [headerLinesOf, List.map_cons, List.flatten_cons, List.append_assoc]
    have hspec := goodHeaderName_spec n (hgood n (List.mem_cons_self ..))
    have hlen4 : (n ++ ":v\r\n".toList).length = n.length + 4 := by
      rw [List.length_append]
      rfl
    obtain ⟨f', rfl⟩ : ∃ f', f = f' + 1 := by
      cases f with
      | zero => exact absurd hf (by omega)
      | succ f' => exact ⟨f', rfl⟩
    rw [hlines]
    have hne : (n ++ ":v\r\n".toList) ++ (headerLinesOf ns' ++ extra) ≠ [] := by
      simp
    by_cases hcap : MAX_HEADER_COUNT < m.length
        ∨ MAX_HEADER_SIZE < (n ++ [':', 'v']).length
    · exact runB_fail _ _ _ hne
        (stepB_header_guard_fail mth pth ar m bd bs ch n _ hspec.2.2.1 hcap)
    · rw [runB_next _ _ _ hne
        (stepB_header_insert mth pth ar m bd bs ch n _
          (hgood n (List.mem_cons_self ..)) hcap)]
      have hfreshn : assocGet m (asciiLowerStr n) = none :=
        hfresh n (List.mem_cons_self ..)
      have hins : HttpHeaders.insert m n ['v']
          = m ++ [(asciiLowerStr n, ['v'])] := by
        unfold HttpHeaders.insert
        exact assocInsert_fresh m (asciiLowerStr n) ['v'] hfreshn
      rw [hins]
      have hpw' := List.pairwise_cons.mp hpw
      refine ih (m ++ [(asciiLowerStr n, ['v'])]) mth pth ar bd extra bs ch f'
        (fun x hx => hgood x (List.mem_cons_of_mem _ hx)) hpw'.2 ?_ ?_ ?_ ?_
      · intro x hx
        exact assocGet_append_none m (asciiLowerStr x) (asciiLowerStr n) ['v']
          (hfresh x (List.mem_cons_of_mem _ hx)) (hpw'.1 x hx)
      · rw [List.length_append]
        simp only [List.length_cons, List.length_nil]
        omega
      · rw [List.length_append]
        simp only [List.length_cons, List.length_nil] at hcount ⊢
        omega
      · rw [hlines, List.length_append, hlen4] at hf
        omega

/-- C4 part (ii): feeding more than `MAX_HEADER_COUNT + 1` header lines
with pairwise-distinct (lowercased) plain names fails with the cap
error, whatever follows. -/
theorem header_count_cap (ns : List (List Char)) (extra : List Char)
    (hgood : ∀ n ∈ ns, goodHeaderName n = true)
    (hpw : ns.Pairwise (fun a b => asciiLowerStr a ≠ asciiLowerStr b))
    (hn : MAX_HEADER_COUNT + 2 ≤ ns.length) :
    HttpRequestBuilder.new.append
        ("GET / HTTP/1.1\r\n".toList ++ (headerLinesOf ns ++ extra))
      = .error .headerCapExceeded := by
  refine append_via_reqline _ _ ?_
  intro f hf
  have h0 : ([] : AssocMap).length = 0 := rfl
  refine headers_count_error ns [] .GET "/".toList [] [] extra 0 false f
    hgood hpw (fun n _ => rfl) (by rw [h0]; omega) ?_ hf
  rw [h0]
  omega

/-- C4 amended: the caps as the code enforces them.  (i) A completed
header line longer than 16 KiB is rejected (error string "Header number
exceed allowed").  (ii) The header-count cap is applied to the header
MAP's entry count, checked before inserting: header lines with more
than `MAX_HEADER_COUNT + 1` pairwise-distinct names are rejected when a
line arrives while the map already holds more than 100 entries.
(iii) The cap counts distinct stored keys only, so 101 distinct headers
are accepted — and, per the counterexample, any number of duplicate
lines is accepted. -/
theorem C4_header_caps :
    (∀ line, '\r' ∉ line → MAX_HEADER_SIZE < line.length →
      HttpRequestBuilder.new.append
          ("GET / HTTP/1.1\r\n".toList ++ (line ++ "\r\n".toList))
        = .error .headerCapExceeded)
    ∧ (∀ ns extra, (∀ n ∈ ns, goodHeaderName n = true) →
        ns.Pairwise (fun a b => asciiLowerStr a ≠ asciiLowerStr b) →
        MAX_HEADER_COUNT + 2 ≤ ns.length →
        HttpRequestBuilder.new.append
            ("GET / HTTP/1.1\r\n".toList ++ (headerLinesOf ns ++ extra))
          = .error .headerCapExceeded)
    ∧ (HttpRequestBuilder.new.append
          ("GET / HTTP/1.1\r\n".toList
            ++ (headerLinesOf demoNames101 ++ "\r\n".toList))).map
        (fun b => (b.done, b.request.headers.length))
        = .ok (true, MAX_HEADER_COUNT + 1) := by
  refine ⟨header_line_too_long, header_count_cap, by decide⟩

/-- Witness for C4: a 16385-byte header line is rejected, and 102
distinct header names are rejected. -/
theorem C4_header_caps_witness :
    HttpRequestBuilder.new.append
        ("GET / HTTP/1.1\r\n".toList
          ++ (List.replicate 16385 'a' ++ "\r\n".toList))
      = .error .headerCapExceeded
    ∧ HttpRequestBuilder.new.append
        ("GET / HTTP/1.1\r\n".toList ++ (headerLinesOf demoNames102 ++ []))
      = .error .headerCapExceeded := by
  constructor
  · refine C4_header_caps.1 _ ?_ ?_
    · intro hm
      exact absurd (List.mem_replicate.mp hm).2 (by decide)
    · rw [List.length_replicate]
      decide
  · exact C4_header_caps.2.1 demoNames102 [] (by decide) (by decide) (by decide)

/-! ## C1: path containment -/

/-- `normalizeSegs` is a left fold: appending token lists composes. -/
theorem normalizeSegs_append (xs ys : List (List Char)) :
    ∀ acc, normalizeSegs acc (xs ++ ys) = normalizeSegs (normalizeSegs acc xs) ys := by
  induction xs with
  | nil =>
    intro acc
    rfl
  | cons t ts ih =>
    intro acc
    rw [List.cons_append, normalizeSegs, normalizeSegs]
    by_cases h1 : t = ".".toList
    · rw [if_pos h1, if_pos h1, ih]
    · rw [if_neg h1, if_neg h1]
      by_cases h2 : t = "..".toList
      · rw [if_pos h2, if_pos h2, ih]
      · rw [if_neg h2, if_neg h2, ih]

/-- Token lists free of `.` and `..`. -/
def CleanToks (l : List (List Char)) : Prop :=
  ∀ t ∈ l, t ≠ ".".toList ∧ t ≠ "..".toList

theorem cleanToks_dropLast (l : List (List Char)) (h : CleanToks l) :
    CleanToks l.dropLast :=
  fun t ht => h t (List.mem_of_mem_dropLast ht)

/-- Normalization output contains no `.`/`..` tokens when the
accumulator doesn't. -/
theorem normalizeSegs_clean (l : List (List Char)) :
    ∀ acc, CleanToks acc → CleanToks (normalizeSegs acc l) := by
  induction l with
  | nil =>
    intro acc hacc
    exact hacc
  | cons t ts ih =>
    intro acc hacc
    rw [normalizeSegs]
    by_cases h1 : t = ".".toList
    · rw [if_pos h1]
      exact ih acc hacc
    · rw [if_neg h1]
      by_cases h2 : t = "..".toList
      · rw [if_pos h2]
        exact ih _ (cleanToks_dropLast acc hacc)
      · rw [if_neg h2]
        refine ih _ ?_
        intro x hx
        rcases List.mem_append.mp hx with h | h
        · exact hacc x h
        · rw [List.mem_singleton.mp h]
          exact ⟨h1, h2⟩

/-- Normalization is plain concatenation on clean token lists. -/
theorem normalizeSegs_of_clean (l : List (List Char)) (h : CleanToks l) :
    ∀ acc, normalizeSegs acc l = acc ++ l := by
  induction l with
  | nil =>
    intro acc
    rw [List.append_nil]
    rfl
  | cons t ts ih =>
    intro acc
    obtain ⟨h1, h2⟩ := h t (List.mem_cons_self ..)
    rw [normalizeSegs, if_neg h1, if_neg h2]
    rw [ih (fun x hx => h x (List.mem_cons_of_mem _ hx))]
    simp

/-- Without `..` tokens, normalization can only extend the stack, so a
prefix of the accumulator stays a prefix. -/
theorem normalizeSegs_keeps_prae (l : List (List Char)) (bc : List (List Char))
    (hdd : "..".toList ∉ l) :
    ∀ acc, bc <+: acc → bc <+: normalizeSegs acc l := by
  induction l with
  | nil =>
    intro acc hacc
    exact hacc
  | cons t ts ih =>
    intro acc hacc
    have hts : "..".toList ∉ ts := fun hm => hdd (List.mem_cons_of_mem _ hm)
    rw [normalizeSegs]
    by_cases h1 : t = ".".toList
    · rw [if_pos h1]
      exact ih hts acc hacc
    · have h2 : t ≠ "..".toList := by
        intro h2
        refine hdd ?_
        rw [← h2]
        exact List.mem_cons_self t ts
      rw [if_neg h1, if_neg h2]
      exact ih hts _ (hacc.trans (List.prefix_append acc [t]))

/-- A prefix whose `dropLast` loses the prefix property is the prefix
itself. -/
theorem eq_of_prae_not_dropLast (bc np : List (List Char))
    (h1 : bc <+: np) (h2 : ¬ bc <+: np.dropLast) : np = bc := by
  obtain ⟨s, rfl⟩ := h1
  cases s with
  | nil => rw [List.append_nil]
  | cons x xs =>
    exfalso
    refine h2 ?_
    rw [List.dropLast_append_cons]
    exact List.prefix_append bc _

/-- The containment core of C1: when the lexical normalization of the
stripped request path escapes the canonicalized base, `resolve_file_path`
returns `None` — including through the nearest-existing-parent fallback
for non-existent targets — provided the abstract filesystem is closed
under parents (the parent of an existing path exists). -/
theorem resolve_file_path_escape (fs : FS) (server : ServerConfig) (route : Route)
    (request_path : List Char) (bc : List (List Char))
    (hpc : ∀ p, fs.exists_seg p = true → p = [] ∨ fs.exists_seg p.dropLast = true)
    (hbase : canonicalize fs (pathToTokens (server.root ++ '/' :: route.root))
        = some bc)
    (hescape : ¬ (bc <+: normalizeSegs bc (relTokens route request_path))) :
    resolve_file_path fs server route request_path = none := by
  have hbase' := hbase
  unfold canonicalize at hbase'
  by_cases hex : fs.exists_seg
      (normalizeSegs [] (pathToTokens (server.root ++ '/' :: route.root))) = true
  case neg =>
    rw [if_neg hex] at hbase'
    cases hbase'
  case pos =>
  rw [if_pos hex] at hbase'
  have hbc : normalizeSegs [] (pathToTokens (server.root ++ '/' :: route.root))
      = bc := Option.some.inj hbase'
  rw [hbc] at hex
  have hclean : CleanToks bc := by
    rw [← hbc]
    exact normalizeSegs_clean _ [] (fun t ht => absurd ht (List.not_mem_nil t))
  have hbcnorm : normalizeSegs [] bc = bc := by
    rw [normalizeSegs_of_clean bc hclean []]
    exact List.nil_append bc
  have hfullnorm : normalizeSegs [] (bc ++ relTokens route request_path)
      = normalizeSegs bc (relTokens route request_path) := by
    rw [normalizeSegs_append, hbcnorm]
  have hrelne : relTokens route request_path ≠ [] := by
    intro h
    refine hescape ?_
    rw [h]
    exact List.prefix_refl bc
  simp only [resolve_file_path]
  rw [hbase]
  simp only []
  unfold canonicalize
  rw [hfullnorm]
  by_cases hex2 : fs.exists_seg (normalizeSegs bc (relTokens route request_path)) = true
  case pos =>
    rw [if_pos hex2]
    simp only []
    have hb : (bc.isPrefixOf (normalizeSegs bc (relTokens route request_path)))
        = false := by
      cases hb : bc.isPrefixOf (normalizeSegs bc (relTokens route request_path)) with
      | false => rfl
      | true => exact absurd (List.isPrefixOf_iff_prefix.mp hb) hescape
    rw [hb]
    rfl
  case neg =>
  rw [if_neg hex2]
  simp only []
  have hfullne : bc ++ relTokens route request_path ≠ [] := by
    intro h
    rcases List.append_eq_nil.mp h with ⟨_, h2⟩
    exact hrelne h2
  obtain ⟨t, hteq⟩ : ∃ t, (relTokens route request_path).dropLast ++ [t]
      = relTokens route request_path :=
    ⟨_, List.dropLast_append_getLast hrelne⟩
  have hparent : (bc ++ relTokens route request_path).dropLast
      = bc ++ (relTokens route request_path).dropLast := by
    rw [← hteq, ← List.append_assoc, List.dropLast_concat, List.dropLast_concat]
  have hparentnorm : normalizeSegs [] (bc ++ (relTokens route request_path).dropLast)
      = normalizeSegs bc (relTokens route request_path).dropLast := by
    rw [normalizeSegs_append, hbcnorm]
  have hstep : normalizeSegs bc (relTokens route request_path)
      = normalizeSegs (normalizeSegs bc (relTokens route request_path).dropLast) [t] := by
    rw [← normalizeSegs_append, hteq]
  obtain ⟨z, zs, hfull⟩ :=
    List.exists_cons_of_ne_nil hfullne
  rw [hfull] at hparent
  rw [hfull]
  simp only []
  rw [hparent, hparentnorm]
  by_cases hex3 : fs.exists_seg
      (normalizeSegs bc (relTokens route request_path).dropLast) = true
  case neg =>
    rw [if_neg hex3]
  case pos =>
  rw [if_pos hex3]
  simp only []
  by_cases hpre : bc.isPrefixOf
      (normalizeSegs bc (relTokens route request_path).dropLast) = true
  case neg =>
    rw [if_neg hpre]
  case pos =>
  exfalso
  have hbccp : bc <+: normalizeSegs bc (relTokens route request_path).dropLast :=
    List.isPrefixOf_iff_prefix.mp hpre
  by_cases ht1 : t = ".".toList
  · refine hescape ?_
    rw [hstep, ht1]
    rw [show normalizeSegs (normalizeSegs bc (relTokens route request_path).dropLast)
          [".".toList]
        = normalizeSegs bc (relTokens route request_path).dropLast from by
      rw [normalizeSegs, if_pos rfl]
      rfl]
    exact hbccp
  by_cases ht2 : t = "..".toList
  · have hn : normalizeSegs bc (relTokens route request_path)
        = (normalizeSegs bc (relTokens route request_path).dropLast).dropLast := by
      rw [hstep, ht2]
      rw [normalizeSegs, if_neg (by decide), if_pos rfl]
      rfl
    have hcpbc : normalizeSegs bc (relTokens route request_path).dropLast = bc := by
      refine eq_of_prae_not_dropLast bc _ hbccp ?_
      intro hcontra
      exact hescape (hn ▸ hcontra)
    rcases hpc bc hex with hbc0 | hbcp
    · refine hescape ?_
      rw [hbc0]
      exact List.nil_prefix
    · refine hex2 ?_
      rw [hn, hcpbc]
      exact hbcp
  · refine hescape ?_
    rw [hstep]
    rw [show normalizeSegs (normalizeSegs bc (relTokens route request_path).dropLast)
          [t]
        = normalizeSegs bc (relTokens route request_path).dropLast ++ [t] from by
      rw [normalizeSegs, if_neg ht1, if_neg ht2]
      rw [normalizeSegs]]
    exact hbccp.trans (List.prefix_append _ [t])

theorem hasDD_cons (c : Char) (t : List Char) (h : hasDD t = true) :
    hasDD (c :: t) = true := by
  cases t with
  | nil => exact absurd h (by decide)
  | cons c₂ t₂ =>
    rw [hasDD, h]
    simp

theorem hasDD_append_left (pre t : List Char) (h : hasDD t = true) :
    hasDD (pre ++ t) = true := by
  induction pre with
  | nil => exact h
  | cons c p ih => exact hasDD_cons c _ ih

theorem hasDD_allslash (b : List Char) (h : ∀ c ∈ b, c = '/') :
    hasDD b = false := by
  induction b with
  | nil => rfl
  | cons c t ih =>
    cases t with
    | nil => rfl
    | cons c₂ t₂ =>
      rw [hasDD]
      rw [show (c == '.') = false from by
        rw [h c (List.mem_cons_self ..)]
        decide]
      rw [ih (fun x hx => h x (List.mem_cons_of_mem _ hx))]
      rfl

theorem hasDD_append_allslash_right (m b : List Char) (hb : ∀ c ∈ b, c = '/') :
    hasDD (m ++ b) = hasDD m := by
  induction m with
  | nil =>
    rw [List.nil_append, hasDD_allslash b hb]
    rfl
  | cons c m' ih =>
    cases m' with
    | nil =>
      rw [show ([c] ++ b) = c :: b from rfl]
      cases b with
      | nil => rfl
      | cons c₂ t₂ =>
        rw [hasDD]
        rw [show (c₂ == '.') = false from by
          rw [hb c₂ (List.mem_cons_self ..)]
          decide]
        rw [hasDD_allslash (c₂ :: t₂) hb]
        simp [hasDD]
    | cons c₂ m'' =>
      rw [show ((c :: c₂ :: m'') ++ b) = c :: ((c₂ :: m'') ++ b) from rfl]
      rw [show ((c₂ :: m'') ++ b) = c₂ :: (m'' ++ b) from rfl]
      rw [hasDD]
      rw [show (c₂ :: (m'' ++ b)) = ((c₂ :: m'') ++ b) from rfl]
      rw [ih]
      rfl

theorem hasDD_append_allslash_left (a m : List Char) (ha : ∀ c ∈ a, c = '/') :
    hasDD (a ++ m) = hasDD m := by
  induction a with
  | nil => rfl
  | cons c a' ih =>
    have ihm := ih (fun x hx => ha x (List.mem_cons_of_mem _ hx))
    rw [List.cons_append]
    cases haa : a' ++ m with
    | nil =>
      rw [haa] at ihm
      rw [← ihm]
      rfl
    | cons d w =>
      rw [hasDD]
      rw [show (c == '.') = false from by
        rw [ha c (List.mem_cons_self ..)]
        decide]
      rw [show ((false && (d == '.')) || hasDD (d :: w)) = hasDD (d :: w) from by
        simp]
      rw [← haa]
      exact ihm

theorem hasDD_trimSlash (l : List Char) : hasDD (trimSlash l) = hasDD l := by
  have ha : ∀ c ∈ List.takeWhile (fun x => x == '/') l, c = '/' := by
    intro c hc
    have h2 := List.mem_takeWhile_imp hc
    exact beq_iff_eq.mp h2
  have hb : ∀ c ∈ (List.takeWhile (fun x => x == '/')
      ((List.dropWhile (fun x => x == '/') l).reverse)).reverse, c = '/' := by
    intro c hc
    have h2 := List.mem_takeWhile_imp (List.mem_reverse.mp hc)
    exact beq_iff_eq.mp h2
  have h1 : hasDD l = hasDD (List.dropWhile (fun x => x == '/') l) := by
    conv_lhs => rw [← List.takeWhile_append_dropWhile (fun x => x == '/') l]
    exact hasDD_append_allslash_left _ _ ha
  have h2 : List.dropWhile (fun x => x == '/') l
      = ((List.dropWhile (fun x => x == '/') l).reverse.dropWhile
            (fun x => x == '/')).reverse
        ++ ((List.dropWhile (fun x => x == '/') l).reverse.takeWhile
            (fun x => x == '/')).reverse := by
    conv_lhs => rw [← List.reverse_reverse (List.dropWhile (fun x => x == '/') l)]
    rw [← List.reverse_append]
    rw [List.takeWhile_append_dropWhile]
  unfold trimSlash
  rw [h1]
  conv_rhs => rw [h2]
  exact (hasDD_append_allslash_right _ _ hb).symm

theorem dotdot_token_split (s : List Char)
    (h : "..".toList ∈ splitOnChar '/' s) : hasDD s = true := by
  induction s with
  | nil =>
    rw [show splitOnChar '/' [] = [[]] from rfl] at h
    exact absurd (List.mem_singleton.mp h) (by decide)
  | cons c t ih =>
    rw [splitOnChar] at h
    by_cases hc : c = '/'
    · rw [if_pos hc] at h
      rcases List.mem_cons.mp h with h1 | h1
      · exact absurd h1 (by decide)
      · exact hasDD_cons c t (ih h1)
    · rw [if_neg hc] at h
      cases hs : splitOnChar '/' t with
      | nil => exact absurd hs (splitOnChar_ne_nil '/' t)
      | cons hd r =>
        rw [hs] at h
        rcases List.mem_cons.mp h with h1 | h1
        · obtain ⟨hc', hh⟩ := List.cons.inj h1.symm
          have hhd : t.takeWhile (fun x => !(x == '/')) = ['.'] := by
            have := splitOnChar_headD '/' t
            rw [hs] at this
            rw [← hh]
            exact this.symm
          cases t with
          | nil => exact absurd hhd (by decide)
          | cons a t' =>
            rw [List.takeWhile_cons] at hhd
            by_cases ha : (!(a == '/')) = true
            · rw [if_pos ha] at hhd
              obtain ⟨ha', _⟩ := List.cons.inj hhd
              rw [hc', ha', hasDD]
              simp
            · rw [if_neg ha] at hhd
              exact absurd hhd (by decide)
        · have : "..".toList ∈ splitOnChar '/' t := by
            rw [hs]
            exact List.mem_cons_of_mem _ h1
          exact hasDD_cons c t (ih this)

/-- An escaping request path must contain a `..` segment, hence the
substring `..`. -/
theorem escape_hasDD (route : Route) (request_path : List Char)
    (bc : List (List Char))
    (hescape : ¬ (bc <+: normalizeSegs bc (relTokens route request_path))) :
    hasDD request_path = true := by
  have hdd : "..".toList ∈ relTokens route request_path := by
    by_contra h
    exact hescape (normalizeSegs_keeps_prae _ bc h bc (List.prefix_refl bc))
  have hsplit : "..".toList ∈ splitOnChar '/' (relString route request_path) :=
    (List.mem_filter.mp hdd).1
  have hstr : hasDD (relString route request_path) = true :=
    dotdot_token_split _ hsplit
  unfold relString at hstr
  set X := (if route.path.isPrefixOf request_path = true
      then request_path.drop route.path.length else []) with hX
  have hXdd : hasDD X = true := by
    conv_lhs => rw [← List.takeWhile_append_dropWhile (· == '/') X]
    exact hasDD_append_left _ _ hstr
  by_cases hp : route.path.isPrefixOf request_path = true
  · rw [hX, if_pos hp] at hXdd
    conv_lhs => rw [← List.take_append_drop route.path.length request_path]
    exact hasDD_append_left _ _ hXdd
  · rw [hX, if_neg hp] at hXdd
    exact absurd hXdd (by decide)

theorem find_trim_none (server : ServerConfig) (request_path : List Char)
    (hdd : hasDD request_path = true)
    (hroutes : ∀ r ∈ server.routes, hasDD r.path = false) :
    server.routes.find? (fun r => trimSlash r.path == trimSlash request_path)
      = none := by
  rw [List.find?_eq_none]
  intro r hr hbeq
  have heq : trimSlash r.path = trimSlash request_path := beq_iff_eq.mp hbeq
  have hcontra : hasDD r.path = true := by
    rw [← hasDD_trimSlash, heq, hasDD_trimSlash]
    exact hdd
  rw [hroutes r hr] at hcontra
  cases hcontra

/-- `handle_get` with the empty resolved path answers 404 for an
escaping request path (no route's trimmed path can match a path
containing `..` when route paths are `..`-free, and opening the empty
path fails). -/
theorem handle_get_status_404 (fs : FS) (server : ServerConfig)
    (req : HttpRequest) (hread : fs.read_ok [] = false)
    (hdd : hasDD req.path = true)
    (hroutes : ∀ r ∈ server.routes, hasDD r.path = false) :
    handle_get_status fs [] server req = 404 := by
  simp only [handle_get_status]
  rw [find_trim_none server req.path hdd hroutes]
  simp only []
  rw [hread]
  rfl

/-- `handle_delete` with the empty resolved path answers 404. -/
theorem handle_delete_status_404 (fs : FS) (errp : List Char)
    (hremove : fs.remove_ok [] = false) :
    handle_delete_status fs [] errp = 404 := by
  unfold handle_delete_status
  rw [hremove]
  simp only [serve_error_page_status, ite_self]
  rfl

/-- C1 amended: a request path whose stripped remainder lexically
escapes the canonicalized base directory makes `resolve_file_path`
return `None`; the dispatched file path is then the empty string, so no
filesystem access can target the escaped path, and GET and DELETE
requests are answered `404`.  (POST requests instead surface the upload
handler's failure status for the empty path — see the counterexample —
so the claim's unconditional `404` does not hold.) -/
theorem C1_path_containment (fs : FS) (server : ServerConfig) (route : Route)
    (req : HttpRequest) (uuidName : List Char) (bc : List (List Char))
    (hpc : ∀ p, fs.exists_seg p = true → p = [] ∨ fs.exists_seg p.dropLast = true)
    (hread : fs.read_ok [] = false) (hremove : fs.remove_ok [] = false)
    (hroute : find_matching_route server req.path = some route)
    (hnored : route.redirect = none)
    (hallowed : route.methods.any (fun m => HttpMethod.from_str m == req.method)
        = true)
    (hnocgi : ∀ ext, route.cgi = some ext → ext.isSuffixOf req.path = false)
    (hroutes : ∀ r ∈ server.routes, hasDD r.path = false)
    (hbase : canonicalize fs (pathToTokens (server.root ++ '/' :: route.root))
        = some bc)
    (hescape : ¬ (bc <+: normalizeSegs bc (relTokens route req.path))) :
    resolve_file_path fs server route req.path = none
    ∧ (req.method = .GET →
        handle_request_outcome fs server req uuidName = .status 404)
    ∧ (req.method = .DELETE →
        handle_request_outcome fs server req uuidName = .status 404) := by
  have hres := resolve_file_path_escape fs server route req.path bc hpc hbase hescape
  have hfp : (resolve_file_path fs server route req.path).getD [] = [] := by
    rw [hres]
    rfl
  refine ⟨hres, ?_, ?_⟩
  · intro hm
    have hdisp : dispatch_method_outcome fs server req
        ((resolve_file_path fs server route req.path).getD []) uuidName
        = .status 404 := by
      unfold dispatch_method_outcome
      rw [hm]
      simp only []
      rw [hfp]
      rw [handle_get_status_404 fs server req hread
        (escape_hasDD route req.path bc hescape) hroutes]
    simp only [handle_request_outcome, hroute, hnored]
    rw [if_pos hallowed]
    cases hcgi : route.cgi with
    | none => exact hdisp
    | some ext =>
      simp only [hnocgi ext hcgi, Bool.false_eq_true, if_false]
      exact hdisp
  · intro hm
    have hdisp : dispatch_method_outcome fs server req
        ((resolve_file_path fs server route req.path).getD []) uuidName
        = .status 404 := by
      unfold dispatch_method_outcome
      rw [hm]
      simp only []
      rw [hfp]
      rw [handle_delete_status_404 fs _ hremove]
    simp only [handle_request_outcome, hroute, hnored]
    rw [if_pos hallowed]
    cases hcgi : route.cgi with
    | none => exact hdisp
    | some ext =>
      simp only [hnocgi ext hcgi, Bool.false_eq_true, if_false]
      exact hdisp

/-- Witness for C1: on the concrete one-directory filesystem, the
escaping path `/../up.txt` resolves to `None` and a GET (respectively
DELETE) request on it is answered 404. -/
theorem C1_path_containment_witness :
    (resolve_file_path demoFS demoServerGet demoRouteGet "/../up.txt".toList = none
      ∧ handle_request_outcome demoFS demoServerGet demoEscapeRequestGet "u".toList
          = .status 404)
    ∧ handle_request_outcome demoFS demoServerDelete demoEscapeRequestDelete
        "u".toList = .status 404 := by
  have hpc : ∀ p, demoFS.exists_seg p = true
      → p = [] ∨ demoFS.exists_seg p.dropLast = true := by
    intro p hp
    simp only [demoFS, Bool.or_eq_true, beq_iff_eq] at hp
    rcases hp with h | h
    · exact .inl h
    · right
      rw [h]
      rfl
  have hnocgi : ∀ ext, demoRouteGet.cgi = some ext
      → ext.isSuffixOf "/../up.txt".toList = false := by
    intro ext h
    rw [show demoRouteGet.cgi = none from rfl] at h
    cases h
  have hget := C1_path_containment demoFS demoServerGet demoRouteGet
    demoEscapeRequestGet "u".toList ["d".toList] hpc rfl rfl
    (by decide) (by decide) (by decide) hnocgi (by decide) (by decide) (by decide)
  have hnocgi' : ∀ ext, demoRouteDelete.cgi = some ext
      → ext.isSuffixOf "/../up.txt".toList = false := by
    intro ext h
    rw [show demoRouteDelete.cgi = none from rfl] at h
    cases h
  have hdel := C1_path_containment demoFS demoServerDelete demoRouteDelete
    demoEscapeRequestDelete "u".toList ["d".toList] hpc rfl rfl
    (by decide) (by decide) (by decide) hnocgi' (by decide) (by decide) (by decide)
  exact ⟨⟨hget.1, hget.2.1 rfl⟩, hdel.2.2 rfl⟩
